import Mathlib

/-! The program cpu_tsdf `integrate.cpp`: depth compositing and mesh cleanup.

A shallow embedding of the geometry-processing functions of
`src/prog/integrate.cpp` (`reprojectPoint`, `remapCloud`, the compositing loop
of `main`, `flattenVertices`, `meshToFaceCloud`, `cleanupMesh`) together with
the properties of these functions.

Conventions of the embedding.

* A C `float` of a colored point is a value of `F32`: NaN, the two infinities,
  or a finite value carried as a rational.  Arithmetic on finite values goes
  through a rounding function `rnd : ℚ → F32`, a parameter of every definition
  that computes with floats; results are proved for every `rnd` (exact
  arithmetic is `F32.fin`).  Signed zeros are not distinguished.
* Mesh vertex coordinates are finite floats carried as rationals.  The float
  arithmetic of `meshToFaceCloud` goes through a rounding function
  `rnd : ℚ → ℚ` (overflow is not modelled), a parameter of the definitions
  that depend on it; exact arithmetic is `fun q => q`.  The squared distances
  reported by the library radius search are the exact ones.
* `std::vector` is `List`; an index into a vector is a `Nat`.
-/

namespace CpuTsdf

/-! ## Floats -/

/-- Value of a C `float`: NaN, minus infinity, plus infinity or a finite value. -/
inductive F32 where
  | nan : F32
  | ninf : F32
  | pinf : F32
  | fin (q : ℚ) : F32
deriving DecidableEq

namespace F32

/-- The test `pcl_isnan`. -/
def isnan : F32 → Bool
  | nan => true
  | _ => false

/-- The comparison `a < b` of two floats; false as soon as one side is NaN. -/
def lt : F32 → F32 → Bool
  | nan, _ => false
  | _, nan => false
  | ninf, ninf => false
  | ninf, _ => true
  | pinf, _ => false
  | fin _, ninf => false
  | fin _, pinf => true
  | fin a, fin b => decide (a < b)

/-- The float product `a * b`. -/
def mul (rnd : ℚ → F32) : F32 → F32 → F32
  | nan, _ => nan
  | _, nan => nan
  | pinf, pinf => pinf
  | pinf, ninf => ninf
  | ninf, pinf => ninf
  | ninf, ninf => pinf
  | pinf, fin b => if 0 < b then pinf else if b < 0 then ninf else nan
  | ninf, fin b => if 0 < b then ninf else if b < 0 then pinf else nan
  | fin a, pinf => if 0 < a then pinf else if a < 0 then ninf else nan
  | fin a, ninf => if 0 < a then ninf else if a < 0 then pinf else nan
  | fin a, fin b => rnd (a * b)

/-- The float quotient `a / b` (a zero divisor is taken as `+0`). -/
def div (rnd : ℚ → F32) : F32 → F32 → F32
  | nan, _ => nan
  | _, nan => nan
  | pinf, pinf => nan
  | pinf, ninf => nan
  | ninf, pinf => nan
  | ninf, ninf => nan
  | pinf, fin b => if b < 0 then ninf else pinf
  | ninf, fin b => if b < 0 then pinf else ninf
  | fin _, pinf => fin 0
  | fin _, ninf => fin 0
  | fin a, fin b =>
    if b = 0 then (if 0 < a then pinf else if a < 0 then ninf else nan) else rnd (a / b)

/-- The float sum `a + b`. -/
def add (rnd : ℚ → F32) : F32 → F32 → F32
  | nan, _ => nan
  | _, nan => nan
  | pinf, ninf => nan
  | ninf, pinf => nan
  | pinf, _ => pinf
  | ninf, _ => ninf
  | fin _, pinf => pinf
  | fin _, ninf => ninf
  | fin a, fin b => rnd (a + b)

/-- Truncation of a rational toward zero. -/
def truncQ (q : ℚ) : Int := q.num.tdiv q.den

/-- The conversion of a float to `int` performed by an assignment `int u = <float>`:
truncation toward zero.  A value that does not fit in 32 bits, an infinity or a
NaN has no defined conversion in C++; the model returns `INT_MIN` there, the
value produced by the x86 conversion instruction. -/
def toInt : F32 → Int
  | fin q => if -2147483648 ≤ truncQ q ∧ truncQ q < 2147483648 then truncQ q else -2147483648
  | _ => -2147483648

end F32

/-! ## Depth compositing -/

/-- The file-scope camera variables `width_`, `height_`, `focal_length_x_`,
`focal_length_y_`, `principal_point_x_`, `principal_point_y_`. -/
structure Intrinsics where
  width_ : Nat
  height_ : Nat
  focal_length_x_ : F32
  focal_length_y_ : F32
  principal_point_x_ : F32
  principal_point_y_ : F32
deriving DecidableEq

/-- The point type `pcl::PointXYZRGBA`: three float coordinates and a packed color. -/
structure PointXYZRGBA where
  x : F32
  y : F32
  z : F32
  rgba : Nat
deriving DecidableEq

/-- A default-constructed point (coordinates zero). -/
def PointXYZRGBA.zero : PointXYZRGBA := ⟨F32.fin 0, F32.fin 0, F32.fin 0, 0⟩

/-- The function `reprojectPoint (pt, u, v)`: the returned triple is the `bool` result
and the values left in the out-parameters `u` and `v`. -/
def reprojectPoint (rnd : ℚ → F32) (cam : Intrinsics) (pt : PointXYZRGBA) : Bool × Int × Int :=
  let u := F32.toInt (F32.add rnd (F32.div rnd (F32.mul rnd pt.x cam.focal_length_x_) pt.z)
    cam.principal_point_x_)
  let v := F32.toInt (F32.add rnd (F32.div rnd (F32.mul rnd pt.y cam.focal_length_y_) pt.z)
    cam.principal_point_y_)
  (!pt.z.isnan && F32.lt (F32.fin 0) pt.z && decide (0 ≤ u) && decide (u < (cam.width_ : Int))
    && decide (0 ≤ v) && decide (v < (cam.height_ : Int)), u, v)

/-- An organized cloud of `width_ * height_` default points whose `z` has been set to NaN
(`cloud_organized` after the first loop of the non-organized branch of `main`,
`cloud_remapped` after the first loop of `remapCloud`). -/
def emptyGrid (cam : Intrinsics) : List PointXYZRGBA :=
  (List.replicate (cam.width_ * cam.height_) PointXYZRGBA.zero).map
    (fun p => { p with z := F32.nan })

/-- Position of the cell `(column u, row v)` in the point vector of an organized cloud
(`pcl::PointCloud::operator() (column, row)`). -/
def cellIndex (cam : Intrinsics) (u v : Int) : Nat := v.toNat * cam.width_ + u.toNat

/-- One iteration of the second loop of the non-organized branch of `main`. -/
def compositeStep (rnd : ℚ → F32) (cam : Intrinsics) (grid : List PointXYZRGBA)
    (pt : PointXYZRGBA) : List PointXYZRGBA :=
  match reprojectPoint rnd cam pt with
  | (true, u, v) =>
    let pt_old := grid.getD (cellIndex cam u v) PointXYZRGBA.zero
    if pt_old.z.isnan || F32.lt pt.z pt_old.z then grid.set (cellIndex cam u v) pt else grid
  | (false, _, _) => grid

/-- The non-organized branch of `main`: the grid is emptied, then every point of the
cloud is composited in sequence order. -/
def compositeMain (rnd : ℚ → F32) (cam : Intrinsics) (cloud : List PointXYZRGBA) :
    List PointXYZRGBA :=
  cloud.foldl (compositeStep rnd cam) (emptyGrid cam)

/-- One iteration of the second loop of `remapCloud`. -/
def remapStep (rnd : ℚ → F32) (cam : Intrinsics) (cloud_remapped : List PointXYZRGBA)
    (pt : PointXYZRGBA) : List PointXYZRGBA :=
  let r := reprojectPoint rnd cam pt
  if !r.1 then cloud_remapped
  else
    let pt_remapped := cloud_remapped.getD (cellIndex cam r.2.1 r.2.2) PointXYZRGBA.zero
    if pt_remapped.z.isnan || F32.lt pt.z pt_remapped.z then
      cloud_remapped.set (cellIndex cam r.2.1 r.2.2) pt
    else cloud_remapped

/-- The function `remapCloud` (its `pose` argument is not used by the body). -/
def remapCloud (rnd : ℚ → F32) (cam : Intrinsics) (cloud : List PointXYZRGBA) :
    List PointXYZRGBA :=
  cloud.foldl (remapStep rnd cam) (emptyGrid cam)

/-- The point `pt` is accepted by `reprojectPoint` and lands on pixel `(u, v)`. -/
def mapsTo (rnd : ℚ → F32) (cam : Intrinsics) (pt : PointXYZRGBA) (u v : Int) : Prop :=
  reprojectPoint rnd cam pt = (true, u, v)

/-- The point `p` is the entry `i` of `cloud` and is the first of the nearest candidates
of pixel `(u, v)`: it is accepted for `(u, v)`, no accepted point of the pixel has a
smaller `z`, and every accepted point of the pixel that comes earlier in the sequence
has a strictly larger `z`. -/
def FirstNearest (rnd : ℚ → F32) (cam : Intrinsics) (cloud : List PointXYZRGBA) (u v : Int)
    (i : Nat) (p : PointXYZRGBA) : Prop :=
  cloud[i]? = some p ∧ mapsTo rnd cam p u v ∧
    (∀ (j : Nat) (q : PointXYZRGBA), cloud[j]? = some q → mapsTo rnd cam q u v →
      F32.lt q.z p.z = false) ∧
    (∀ (j : Nat) (q : PointXYZRGBA), j < i → cloud[j]? = some q → mapsTo rnd cam q u v →
      F32.lt p.z q.z = true)

/-- State of one cell after the points of `l` have been composited: empty with no
candidate in `l`, or holding the first of the nearest candidates of `l`. -/
def CellOk (rnd : ℚ → F32) (cam : Intrinsics) (l : List PointXYZRGBA) (u v : Int)
    (cell : PointXYZRGBA) : Prop :=
  (cell.z.isnan = true ∧ ∀ p ∈ l, ¬ mapsTo rnd cam p u v) ∨
  (∃ (i : Nat) (p : PointXYZRGBA), cell = p ∧ FirstNearest rnd cam l u v i p)

/-- The comparison `a <= b` of two floats; false as soon as one side is NaN. -/
def F32.le : F32 → F32 → Bool
  | F32.nan, _ => false
  | _, F32.nan => false
  | F32.ninf, _ => true
  | F32.pinf, F32.pinf => true
  | F32.pinf, _ => false
  | F32.fin _, F32.ninf => false
  | F32.fin _, F32.pinf => true
  | F32.fin a, F32.fin b => decide (a ≤ b)

/-- The nearest integer of a rational (halves go up), the `round` of the reprojection
rule as the specification words it. -/
def nearestInt (q : ℚ) : Int := ⌊q + 1 / 2⌋

/-- The camera variables as initialised at file scope: 640 x 480, focal length 525,
principal point (319.5, 239.5). -/
def defaultIntrinsics : Intrinsics :=
  ⟨640, 480, F32.fin 525, F32.fin 525, F32.fin (639 / 2), F32.fin (479 / 2)⟩

/-- A 2 x 2 camera with unit focal lengths and principal point (0, 0). -/
def unitIntrinsics : Intrinsics := ⟨2, 2, F32.fin 1, F32.fin 1, F32.fin 0, F32.fin 0⟩

/-! ## Meshes and the radius search -/

/-- The point type `pcl::PointXYZ` of a mesh vertex, with finite coordinates. -/
structure PointXYZ where
  x : ℚ
  y : ℚ
  z : ℚ
deriving DecidableEq

/-- A default-constructed vertex. -/
def PointXYZ.zero : PointXYZ := ⟨0, 0, 0⟩

/-- The mesh type `pcl::PolygonMesh`: the vertex cloud and the polygons, each polygon
(`pcl::Vertices`) being the vector of its vertex indices. -/
structure PolygonMesh where
  cloud : List PointXYZ
  polygons : List (List Nat)
deriving DecidableEq

/-- Squared Euclidean distance of two points. -/
def sqDist (p q : PointXYZ) : ℚ :=
  (p.x - q.x) * (p.x - q.x) + (p.y - q.y) * (p.y - q.y) + (p.z - q.z) * (p.z - q.z)

/-- Order of the entries `(index, squared distance)` of a sorted search result:
by squared distance, then by index. -/
def nearerEq (a b : Nat × ℚ) : Prop := a.2 < b.2 ∨ (a.2 = b.2 ∧ a.1 ≤ b.1)

instance nearerEqDecidable : DecidableRel nearerEq := fun a b =>
  inferInstanceAs (Decidable (a.2 < b.2 ∨ (a.2 = b.2 ∧ a.1 ≤ b.1)))

instance nearerEq_isTotal : IsTotal (Nat × ℚ) nearerEq where
  total a b := by
    unfold nearerEq
    rcases lt_trichotomy a.2 b.2 with h | h | h
    · exact Or.inl (Or.inl h)
    · rcases Nat.le_total a.1 b.1 with h' | h'
      · exact Or.inl (Or.inr ⟨h, h'⟩)
      · exact Or.inr (Or.inr ⟨h.symm, h'⟩)
    · exact Or.inr (Or.inl h)

instance nearerEq_isTrans : IsTrans (Nat × ℚ) nearerEq where
  trans a b c := by
    unfold nearerEq
    rintro (h1 | ⟨h1, h1'⟩) (h2 | ⟨h2, h2'⟩)
    · exact Or.inl (lt_trans h1 h2)
    · exact Or.inl (h2 ▸ h1)
    · exact Or.inl (h1 ▸ h2)
    · exact Or.inr ⟨h1.trans h2, Nat.le_trans h1' h2'⟩

/-- The library call `pcl::search::KdTree::radiusSearch (index, radius, k_indices,
k_sqr_distances)` on a tree with sorted results (the default): the points of `cloud` whose
squared distance to the point `index` is below `radius * radius`, each with that squared
distance, in increasing order of squared distance (of index, among equal distances). -/
def radiusSearch (cloud : List PointXYZ) (index : Nat) (radius : ℚ) : List (Nat × ℚ) :=
  List.insertionSort nearerEq
    (((List.range cloud.length).map
        (fun j => (j, sqDist (cloud.getD index PointXYZ.zero) (cloud.getD j PointXYZ.zero)))).filter
      (fun n => decide (n.2 < radius * radius)))

/-! ## Vertex merging -/

/-- The inner loop of the scan of `flattenVertices`: every neighbour from position 1 on
whose reported distance is below `min_dist` gets the compact index `idx`. -/
def assignNeighbors (min_dist : ℚ) (idx : Int) (neighbors : List (Nat × ℚ))
    (vertex_remap : List Int) : List Int :=
  (neighbors.drop 1).foldl
    (fun r n => if n.2 < min_dist then r.set n.1 idx else r) vertex_remap

/-- State of the scan of `flattenVertices`: `vertex_remap`, `idx` and `vertices_new`. -/
structure ScanState where
  vertex_remap : List Int
  idx : Int
  vertices_new : List PointXYZ
deriving DecidableEq

/-- One iteration of the scan of `flattenVertices`, for the vertex `i`. -/
def scanStep (vertices : List PointXYZ) (min_dist : ℚ) (st : ScanState) (i : Nat) : ScanState :=
  if st.vertex_remap.getD i (-1) ≥ 0 then st
  else
    { vertex_remap :=
        assignNeighbors min_dist st.idx (radiusSearch vertices i min_dist)
          (st.vertex_remap.set i st.idx)
      idx := st.idx + 1
      vertices_new := st.vertices_new ++ [vertices.getD i PointXYZ.zero] }

/-- The scan of `flattenVertices` after its first `p` iterations. -/
def scanState (vertices : List PointXYZ) (min_dist : ℚ) (p : Nat) : ScanState :=
  (List.range p).foldl (scanStep vertices min_dist)
    ⟨List.replicate vertices.length (-1), 0, []⟩

/-- The vector `vertex_remap` at the end of the scan of `flattenVertices`. -/
def flattenRemap (vertices : List PointXYZ) (min_dist : ℚ) : List Int :=
  (scanState vertices min_dist vertices.length).vertex_remap

/-- A polygon after its indices have been sent through `vertex_remap` (an index past the
end of `vertex_remap`, which C++ leaves undefined, reads `-1`). -/
def remapFace (vertex_remap : List Int) (v : List Nat) : List Nat :=
  v.map (fun k => (vertex_remap.getD k (-1)).toNat)

/-- The test of `flattenVertices` for a degenerate face, on the first three indices of
the polygon (a missing index, which C++ leaves undefined, reads `0`). -/
def degenerate (v : List Nat) : Bool :=
  v.getD 0 0 == v.getD 1 0 || v.getD 1 0 == v.getD 2 0 || v.getD 2 0 == v.getD 0 0

/-- One iteration of the face loop of `flattenVertices`: the face is remapped, and
kept (written at position `face_idx`) unless it is degenerate. -/
def flattenFaceStep (vertex_remap : List Int) (kept : List (List Nat)) (v : List Nat) :
    List (List Nat) :=
  if degenerate (remapFace vertex_remap v) then kept
  else kept ++ [remapFace vertex_remap v]

/-- The function `flattenVertices (mesh, min_dist)`. -/
def flattenVertices (mesh : PolygonMesh) (min_dist : ℚ) : PolygonMesh :=
  { cloud := (scanState mesh.cloud min_dist mesh.cloud.length).vertices_new
    polygons := mesh.polygons.foldl (flattenFaceStep (flattenRemap mesh.cloud min_dist)) [] }

/-- Every polygon is a triangle whose indices are positions of the vertex cloud. -/
def TriangleMesh (mesh : PolygonMesh) : Prop :=
  ∀ v ∈ mesh.polygons, v.length = 3 ∧ ∀ k ∈ v, k < mesh.cloud.length

/-- The scan of `flattenVertices` finds the vertex `a` unassigned when it reaches it, so
`a` becomes a representative. -/
def IsRepresentative (vertices : List PointXYZ) (min_dist : ℚ) (a : Nat) : Prop :=
  (scanState vertices min_dist a).vertex_remap.getD a (-1) < 0

/-- The vertex `b` is within merge range of the vertex `a` as the scan of
`flattenVertices` tests it: the radius search from `a` reports `b` (squared distance
below `min_dist * min_dist`) and the reported squared distance is below `min_dist`. -/
def MergeNear (vertices : List PointXYZ) (min_dist : ℚ) (a b : Nat) : Prop :=
  sqDist (vertices.getD a PointXYZ.zero) (vertices.getD b PointXYZ.zero) < min_dist * min_dist ∧
  sqDist (vertices.getD a PointXYZ.zero) (vertices.getD b PointXYZ.zero) < min_dist

/-- The neighbour `k` is given the index of the representative `i` by the inner loop. -/
def Hit (vertices : List PointXYZ) (min_dist : ℚ) (i k : Nat) : Prop :=
  ∃ n ∈ (radiusSearch vertices i min_dist).drop 1, n.1 = k ∧ n.2 < min_dist

instance isRepresentativeDecidable (vertices : List PointXYZ) (min_dist : ℚ) (a : Nat) :
    Decidable (IsRepresentative vertices min_dist a) :=
  inferInstanceAs (Decidable ((scanState vertices min_dist a).vertex_remap.getD a (-1) < 0))

/-- One coordinate of the expression `(v0 + v1 + v2) / 3.` of `meshToFaceCloud`, as the
float vector arithmetic evaluates it: two float sums and one float quotient, each the
rounding `rnd` of the exact result. -/
def centroidCoord (rnd : ℚ → ℚ) (a b c : ℚ) : ℚ := rnd (rnd (rnd (a + b) + c) / 3)

/-- The centroid `(v0 + v1 + v2) / 3.` that `meshToFaceCloud` computes in float
arithmetic and stores in the face cloud. -/
def centroid (rnd : ℚ → ℚ) (v0 v1 v2 : PointXYZ) : PointXYZ :=
  ⟨centroidCoord rnd v0.x v1.x v2.x, centroidCoord rnd v0.y v1.y v2.y,
    centroidCoord rnd v0.z v1.z v2.z⟩

/-- One iteration of the loop of `meshToFaceCloud`: a polygon that is not a triangle is
skipped; a triangle adds its centroid to the face cloud.  The bounds-checked accesses
`vertices.at (...)` throw on an index out of range, which is the result `none`.  (The
normal stored next to the centroid is read by no later step and is left out.) -/
def faceCloudStep (rnd : ℚ → ℚ) (vertices : List PointXYZ) (cloud : List PointXYZ)
    (v : List Nat) : Option (List PointXYZ) :=
  if v.length ≠ 3 then some cloud
  else
    match vertices[v.getD 0 0]?, vertices[v.getD 1 0]?, vertices[v.getD 2 0]? with
    | some v0, some v1, some v2 => some (cloud ++ [centroid rnd v0 v1 v2])
    | _, _, _ => none

/-- The function `meshToFaceCloud`, for the rounding `rnd` of its float arithmetic. -/
def meshToFaceCloud (rnd : ℚ → ℚ) (mesh : PolygonMesh) : Option (List PointXYZ) :=
  mesh.polygons.foldlM (faceCloudStep rnd mesh.cloud) []

/-- The neighbour loop of the cluster extraction: every neighbour from position 1 on that
is not yet processed is appended to the seed queue and marked processed.  The state is
the pair of the seed queue and the `processed` flags. -/
def pushNeighbors (neighbors : List (Nat × ℚ)) (st : List Nat × List Bool) :
    List Nat × List Bool :=
  (neighbors.drop 1).foldl
    (fun s n => if s.2.getD n.1 false then s else (s.1 ++ [n.1], s.2.set n.1 true)) st

/-- The `while (sq_idx < seed_queue.size ())` loop of the cluster extraction, run for at
most `fuel` iterations: the neighbours of the queue entry `sq_idx` are searched within
`tolerance` and pushed. -/
def growCluster (cloud : List PointXYZ) (tolerance : ℚ) :
    Nat → Nat → List Nat × List Bool → List Nat × List Bool
  | 0, _, st => st
  | fuel + 1, sq_idx, st =>
    if sq_idx < st.1.length then
      growCluster cloud tolerance fuel (sq_idx + 1)
        (pushNeighbors (radiusSearch cloud (st.1.getD sq_idx 0) tolerance) st)
    else st

/-- One iteration of the outer loop of the cluster extraction, for the point `i`: a
point not yet processed seeds a queue, which is grown to a cluster; the cluster is
recorded, with its indices sorted and made unique, when its size lies between
`min_pts` and `max_pts`.  The state is the pair of the clusters found and the
`processed` flags. -/
def extractStep (cloud : List PointXYZ) (tolerance : ℚ) (min_pts max_pts : Nat)
    (st : List (List Nat) × List Bool) (i : Nat) : List (List Nat) × List Bool :=
  if st.2.getD i false then st
  else
    let grown := growCluster cloud tolerance cloud.length 0 ([i], st.2.set i true)
    if min_pts ≤ grown.1.length ∧ grown.1.length ≤ max_pts then
      (st.1 ++ [(grown.1.insertionSort (· ≤ ·)).dedup], grown.2)
    else (st.1, grown.2)

/-- The library call `pcl::EuclideanClusterExtraction::extract` on a cloud searched with
a tree of sorted results: a flood fill from every point not yet processed, through
radius searches of radius `tolerance`.  (The library finally orders the clusters by
size; `cleanupMesh` sorts the indices it collects, so that order is not modelled.) -/
def extractEuclideanClusters (cloud : List PointXYZ) (tolerance : ℚ) (min_pts max_pts : Nat) :
    List (List Nat) :=
  ((List.range cloud.length).foldl (extractStep cloud tolerance min_pts max_pts)
    ([], List.replicate cloud.length false)).1

/-- The erase loop of `cleanupMesh`: `faces_to_remove` is sorted, then the polygons at
its entries are erased from the last entry to the first. -/
def eraseFaces (polygons : List (List Nat)) (faces_to_remove : List Nat) : List (List Nat) :=
  (faces_to_remove.insertionSort (· ≤ ·)).reverse.foldl (fun ps r => ps.eraseIdx r) polygons

/-- The marking loop of `cleanupMesh`: `has_face`, with the first three indices of every
polygon set (a missing index, which C++ leaves undefined, reads `0`). -/
def markFaces (n : Nat) (polygons : List (List Nat)) : List Bool :=
  polygons.foldl
    (fun has_face v =>
      ((has_face.set (v.getD 0 0) true).set (v.getD 1 0) true).set (v.getD 2 0) true)
    (List.replicate n false)

/-- State of the compaction loop of `cleanupMesh`: `vertices_new`, `get_new_idx` and
`cur_idx`. -/
structure CompactState where
  vertices_new : List PointXYZ
  get_new_idx : List Nat
  cur_idx : Nat
deriving DecidableEq

/-- One iteration of the compaction loop of `cleanupMesh`, for the vertex `i`. -/
def compactStep (vertices : List PointXYZ) (has_face : List Bool) (st : CompactState)
    (i : Nat) : CompactState :=
  if has_face.getD i false then
    { vertices_new := st.vertices_new ++ [vertices.getD i PointXYZ.zero]
      get_new_idx := st.get_new_idx.set i st.cur_idx
      cur_idx := st.cur_idx + 1 }
  else st

/-- The compaction loop of `cleanupMesh`. -/
def compactVertices (vertices : List PointXYZ) (has_face : List Bool) : CompactState :=
  (List.range vertices.length).foldl (compactStep vertices has_face)
    ⟨[], List.replicate vertices.length 0, 0⟩

/-- One iteration of the last loop of `cleanupMesh`: the first three indices of the
polygon are sent through `get_new_idx`, one after the other. -/
def reindexFace (get_new_idx : List Nat) (v : List Nat) : List Nat :=
  let v1 := v.set 0 (get_new_idx.getD (v.getD 0 0) 0)
  let v2 := v1.set 1 (get_new_idx.getD (v1.getD 1 0) 0)
  v2.set 2 (get_new_idx.getD (v2.getD 2 0) 0)

/-- The second half of `cleanupMesh` (from `std::sort` on): the faces listed in
`faces_to_remove` are erased, the vertices without a face are dropped and the faces
are reindexed. -/
def cleanupFaces (mesh : PolygonMesh) (faces_to_remove : List Nat) : PolygonMesh :=
  let polygons := eraseFaces mesh.polygons faces_to_remove
  let compact := compactVertices mesh.cloud (markFaces mesh.cloud.length polygons)
  { cloud := compact.vertices_new
    polygons := polygons.map (reindexFace compact.get_new_idx) }

/-- The vector `faces_to_remove` of `cleanupMesh` before it is sorted: the indices of the
clusters of at most `min_neighbors` points of the face cloud, one cluster after the
other. -/
def facesToRemove (faces : List PointXYZ) (face_dist : ℚ) (min_neighbors : Nat) : List Nat :=
  (extractEuclideanClusters faces face_dist 1 min_neighbors).flatten

/-- The function `cleanupMesh (mesh, face_dist, min_neighbors)`, for the rounding `rnd`
of the float arithmetic of `meshToFaceCloud`; `none` when `meshToFaceCloud` throws. -/
def cleanupMesh (rnd : ℚ → ℚ) (mesh : PolygonMesh) (face_dist : ℚ) (min_neighbors : Nat) :
    Option PolygonMesh :=
  match meshToFaceCloud rnd mesh with
  | some faces => some (cleanupFaces mesh (facesToRemove faces face_dist min_neighbors))
  | none => none

/-- The positions of the faces that are not listed in `R`, in increasing order. -/
def keptIndices (n : Nat) (R : List Nat) : List Nat :=
  (List.range n).filter (fun i => decide (i ∉ R))

/-- The faces of `polygons` whose position is not listed in `R`, in original order. -/
def survivors (polygons : List (List Nat)) (R : List Nat) : List (List Nat) :=
  (keptIndices polygons.length R).map (fun i => polygons.getD i [])

/-- The positions of a polygon resolved to vertex positions through a vertex
sequence. -/
def resolve (cloud : List PointXYZ) (v : List Nat) : List (Option PointXYZ) :=
  v.map (fun i => cloud[i]?)

/-! ## Connected components of the face cloud -/

/-- A mesh of seven vertices with a quadrilateral face followed by one triangle. -/
def quadThenTriangle : PolygonMesh :=
  ⟨[⟨0, 0, 0⟩, ⟨1, 0, 0⟩, ⟨1, 1, 0⟩, ⟨0, 1, 0⟩, ⟨10, 0, 0⟩, ⟨11, 0, 0⟩, ⟨10, 1, 0⟩],
    [[0, 1, 2, 3], [4, 5, 6]]⟩

/-! ## Properties -/

open F32



theorem f32_lt_nan_left (a : F32) : F32.lt nan a = false := by cases a <;> rfl

theorem f32_lt_nan_right (a : F32) : F32.lt a nan = false := by cases a <;> rfl

theorem f32_lt_irrefl (a : F32) : F32.lt a a = false := by
  cases a <;> simp [F32.lt]

theorem f32_lt_trans {a b c : F32} (h1 : F32.lt a b = true) (h2 : F32.lt b c = true) :
    F32.lt a c = true := by
  cases a <;> cases b <;> cases c <;> simp_all [F32.lt]
  exact lt_trans h1 h2

theorem f32_lt_of_lt_of_not_lt {a b c : F32} (h1 : F32.lt a b = true) (h2 : F32.lt c b = false)
    (hc : c.isnan = false) : F32.lt a c = true := by
  cases a <;> cases b <;> cases c <;> simp_all [F32.lt, F32.isnan]
  exact lt_of_lt_of_le h1 h2

theorem f32_not_lt_of_lt {a b : F32} (h : F32.lt a b = true) : F32.lt b a = false := by
  cases a <;> cases b <;> simp_all [F32.lt]
  exact le_of_lt h

theorem cellIndex_inj (cam : Intrinsics) {u v u' v' : Int} (hu : 0 ≤ u) (hu' : u < cam.width_)
    (hv : 0 ≤ v) (hu2 : 0 ≤ u') (hu2' : u' < cam.width_) (hv2 : 0 ≤ v')
    (h : cellIndex cam u v = cellIndex cam u' v') : u = u' ∧ v = v' := by
  unfold cellIndex at h
  have h1 : u.toNat < cam.width_ := by omega
  have h2 : u'.toNat < cam.width_ := by omega
  have hm := congrArg (· % cam.width_) h
  have hd := congrArg (· / cam.width_) h
  have hw : 0 < cam.width_ := by omega
  simp only [Nat.mul_add_mod_of_lt, Nat.add_mod, Nat.mul_mod_left, Nat.mod_eq_of_lt h1, Nat.mod_eq_of_lt h2, Nat.zero_add, Nat.mod_mod] at hm
  simp only [Nat.add_div hw, Nat.mul_div_left _ hw, Nat.div_eq_of_lt h1, Nat.div_eq_of_lt h2, Nat.mul_mod_left, Nat.mod_eq_of_lt h1, Nat.mod_eq_of_lt h2] at hd
  simp at hd
  have e1 : ¬ (cam.width_ ≤ u.toNat) := by omega
  have e2 : ¬ (cam.width_ ≤ u'.toNat) := by omega
  simp [e1, e2] at hd
  omega

theorem cellIndex_lt (cam : Intrinsics) {u v : Int} (hu : 0 ≤ u) (hu' : u < cam.width_)
    (hv : 0 ≤ v) (hv' : v < cam.height_) : cellIndex cam u v < cam.width_ * cam.height_ := by
  unfold cellIndex
  have h1 : u.toNat < cam.width_ := by omega
  have h2 : v.toNat + 1 ≤ cam.height_ := by omega
  calc v.toNat * cam.width_ + u.toNat < v.toNat * cam.width_ + cam.width_ := by omega
    _ = cam.width_ * (v.toNat + 1) := by ring
    _ ≤ cam.width_ * cam.height_ := Nat.mul_le_mul_left _ h2

theorem mapsTo_spec {rnd : ℚ → F32} {cam : Intrinsics} {pt : PointXYZRGBA} {u v : Int}
    (h : mapsTo rnd cam pt u v) :
    pt.z.isnan = false ∧ F32.lt (F32.fin 0) pt.z = true ∧ 0 ≤ u ∧ u < cam.width_ ∧ 0 ≤ v ∧
      v < cam.height_ := by
  unfold mapsTo reprojectPoint at h
  simp only [Prod.mk.injEq, Bool.and_eq_true, Bool.not_eq_true', decide_eq_true_eq] at h
  obtain ⟨⟨⟨⟨⟨⟨h1, h2⟩, h3⟩, h4⟩, h5⟩, h6⟩, hu, hv⟩ := h
  subst hu; subst hv
  exact ⟨h1, h2, h3, h4, h5, h6⟩

theorem remapStep_eq (rnd : ℚ → F32) (cam : Intrinsics) (g : List PointXYZRGBA)
    (pt : PointXYZRGBA) : remapStep rnd cam g pt = compositeStep rnd cam g pt := by
  unfold remapStep compositeStep
  rcases h : reprojectPoint rnd cam pt with ⟨b, u, v⟩
  cases b <;> simp

theorem remapCloud_eq (rnd : ℚ → F32) (cam : Intrinsics) (cloud : List PointXYZRGBA) :
    remapCloud rnd cam cloud = compositeMain rnd cam cloud := by
  unfold remapCloud compositeMain
  congr 1
  funext g pt
  exact remapStep_eq rnd cam g pt

theorem emptyGrid_length (cam : Intrinsics) :
    (emptyGrid cam).length = cam.width_ * cam.height_ := by
  simp [emptyGrid]

theorem emptyGrid_getD (cam : Intrinsics) (i : Nat) (hi : i < cam.width_ * cam.height_) :
    ((emptyGrid cam).getD i PointXYZRGBA.zero).z = F32.nan := by
  simp [emptyGrid, List.getD, List.getElem?_replicate, hi]

theorem compositeStep_length (rnd : ℚ → F32) (cam : Intrinsics) (g : List PointXYZRGBA)
    (pt : PointXYZRGBA) : (compositeStep rnd cam g pt).length = g.length := by
  unfold compositeStep
  rcases h : reprojectPoint rnd cam pt with ⟨b, u, v⟩
  cases b
  · simp
  · simp only
    split <;> simp

theorem composite_inv (rnd : ℚ → F32) (cam : Intrinsics) (l : List PointXYZRGBA) :
    (l.foldl (compositeStep rnd cam) (emptyGrid cam)).length = cam.width_ * cam.height_ ∧
    ∀ u v : Int, 0 ≤ u → u < cam.width_ → 0 ≤ v → v < cam.height_ →
      CellOk rnd cam l u v
        ((l.foldl (compositeStep rnd cam) (emptyGrid cam)).getD (cellIndex cam u v)
          PointXYZRGBA.zero) := by
  induction l using List.reverseRecOn with
  | nil =>
    refine ⟨emptyGrid_length cam, ?_⟩
    intro u v hu hu' hv hv'
    refine Or.inl ⟨?_, by simp⟩
    rw [List.foldl_nil, emptyGrid_getD cam _ (cellIndex_lt cam hu hu' hv hv')]
    rfl
  | append_singleton l pt ih =>
    obtain ⟨ihlen, ih⟩ := ih
    rw [List.foldl_append, List.foldl_cons, List.foldl_nil]
    refine ⟨by rw [compositeStep_length]; exact ihlen, ?_⟩
    intro u v hu hu' hv hv'
    have ihc := ih u v hu hu' hv hv'
    generalize hg : l.foldl (compositeStep rnd cam) (emptyGrid cam) = g at ihc ihlen
    unfold compositeStep
    rcases hr : reprojectPoint rnd cam pt with ⟨b, u0, v0⟩
    cases b
    · -- rejected point: the grid is unchanged
      simp only
      have hno : ∀ a b : Int, ¬ mapsTo rnd cam pt a b := by
        intro a b hm
        unfold mapsTo at hm
        rw [hr] at hm
        simp at hm
      rcases ihc with ⟨hz, hnone⟩ | ⟨i, p, hcell, hi, hm, hmin, hfirst⟩
      · refine Or.inl ⟨hz, ?_⟩
        intro q hq
        rcases List.mem_append.1 hq with hq | hq
        · exact hnone q hq
        · simp only [List.mem_singleton] at hq
          subst hq
          exact hno u v
      · refine Or.inr ⟨i, p, hcell, ?_, hm, ?_, ?_⟩
        · rw [List.getElem?_append_left (List.getElem?_eq_some.1 hi).1]
          exact hi
        · intro j q hj hq
          by_cases hjl : j < l.length
          · rw [List.getElem?_append_left hjl] at hj
            exact hmin j q hj hq
          · rw [List.getElem?_append_right (by omega)] at hj
            have : q = pt := by
              rcases hjj : j - l.length with _ | k
              · rw [hjj] at hj; simpa using hj.symm
              · rw [hjj] at hj; simp at hj
            subst this
            exact absurd hq (hno u v)
        · intro j q hji hj hq
          have hjl : j < l.length := lt_trans hji (List.getElem?_eq_some.1 hi).1
          rw [List.getElem?_append_left hjl] at hj
          exact hfirst j q hji hj hq
    · -- accepted point, landing on pixel `(u0, v0)`
      have hm0 : mapsTo rnd cam pt u0 v0 := hr
      obtain ⟨hz0, -, hu0, hu0', hv0, hv0'⟩ := mapsTo_spec hm0
      have huniq : ∀ a b : Int, mapsTo rnd cam pt a b → a = u0 ∧ b = v0 := by
        intro a b hm
        unfold mapsTo at hm
        rw [hr] at hm
        simp only [Prod.mk.injEq, true_and] at hm
        exact ⟨hm.1.symm, hm.2.symm⟩
      have hlt0 : cellIndex cam u0 v0 < g.length := by
        rw [ihlen]; exact cellIndex_lt cam hu0 hu0' hv0 hv0'
      have happ : ∀ (j : Nat) (q : PointXYZRGBA), (l ++ [pt])[j]? = some q →
          l[j]? = some q ∨ (j = l.length ∧ q = pt) := by
        intro j q hj
        by_cases hjl : j < l.length
        · rw [List.getElem?_append_left hjl] at hj
          exact Or.inl hj
        · rw [List.getElem?_append_right (by omega)] at hj
          rcases hjj : j - l.length with _ | k
          · rw [hjj] at hj
            exact Or.inr ⟨by omega, by simpa using hj.symm⟩
          · rw [hjj] at hj; simp at hj
      by_cases hsame : u = u0 ∧ v = v0
      · obtain ⟨rfl, rfl⟩ := hsame
        simp only
        rcases ihc with ⟨hz, hnone⟩ | ⟨i, p, hcell, hi, hm, hmin, hfirst⟩
        · -- the cell was empty: the point is stored
          rw [hz, Bool.true_or, if_pos rfl, List.getD_eq_getElem?_getD, List.getElem?_set_self hlt0]
          refine Or.inr ⟨l.length, pt, rfl, by simp, hm0, ?_, ?_⟩
          · intro j q hj hq
            rcases happ j q hj with hj | ⟨-, rfl⟩
            · exact absurd hq (hnone q (List.getElem?_mem hj))
            · exact f32_lt_irrefl _
          · intro j q hjl hj hq
            rcases happ j q hj with hj | ⟨h1, -⟩
            · exact absurd hq (hnone q (List.getElem?_mem hj))
            · omega
        · obtain ⟨hpz, -⟩ := mapsTo_spec hm
          have hil : i < l.length := (List.getElem?_eq_some.1 hi).1
          rw [hcell, hpz, Bool.false_or]
          by_cases hnear : F32.lt pt.z p.z = true
          · -- strictly nearer: the point replaces the occupant
            rw [if_pos hnear, List.getD_eq_getElem?_getD, List.getElem?_set_self hlt0]
            refine Or.inr ⟨l.length, pt, rfl, by simp, hm0, ?_, ?_⟩
            · intro j q hj hq
              rcases happ j q hj with hj | ⟨-, rfl⟩
              · have h1 := hmin j q hj hq
                have h2 := f32_lt_of_lt_of_not_lt hnear h1 (mapsTo_spec hq).1
                exact f32_not_lt_of_lt h2
              · exact f32_lt_irrefl _
            · intro j q hjl hj hq
              rcases happ j q hj with hj | ⟨h1, -⟩
              · exact f32_lt_of_lt_of_not_lt hnear (hmin j q hj hq) (mapsTo_spec hq).1
              · omega
          · -- not nearer: the occupant stays
            rw [if_neg hnear]
            refine Or.inr ⟨i, p, hcell, ?_, hm, ?_, ?_⟩
            · rw [List.getElem?_append_left hil]; exact hi
            · intro j q hj hq
              rcases happ j q hj with hj | ⟨-, rfl⟩
              · exact hmin j q hj hq
              · simpa using hnear
            · intro j q hji hj hq
              rcases happ j q hj with hj | ⟨h1, -⟩
              · exact hfirst j q hji hj hq
              · omega
      · -- another cell: untouched, and the point is no candidate for it
        have hne : cellIndex cam u0 v0 ≠ cellIndex cam u v := by
          intro he
          have := cellIndex_inj cam hu0 hu0' hv0 hu hu' hv he
          exact hsame ⟨this.1.symm, this.2.symm⟩
        have hno : ¬ mapsTo rnd cam pt u v := fun hm => hsame (huniq u v hm)
        have hkeep : (if (g.getD (cellIndex cam u0 v0) PointXYZRGBA.zero).z.isnan ||
            F32.lt pt.z (g.getD (cellIndex cam u0 v0) PointXYZRGBA.zero).z
            then g.set (cellIndex cam u0 v0) pt else g).getD (cellIndex cam u v)
              PointXYZRGBA.zero = g.getD (cellIndex cam u v) PointXYZRGBA.zero := by
          split
          · rw [List.getD_eq_getElem?_getD, List.getElem?_set_ne hne, ← List.getD_eq_getElem?_getD]
          · rfl
        simp only
        rw [hkeep]
        rcases ihc with ⟨hz, hnone⟩ | ⟨i, p, hcell, hi, hm, hmin, hfirst⟩
        · refine Or.inl ⟨hz, ?_⟩
          intro q hq
          rcases List.mem_append.1 hq with hq | hq
          · exact hnone q hq
          · simp only [List.mem_singleton] at hq
            subst hq
            exact hno
        · have hil : i < l.length := (List.getElem?_eq_some.1 hi).1
          refine Or.inr ⟨i, p, hcell, ?_, hm, ?_, ?_⟩
          · rw [List.getElem?_append_left hil]; exact hi
          · intro j q hj hq
            rcases happ j q hj with hj | ⟨-, rfl⟩
            · exact hmin j q hj hq
            · exact absurd hq hno
          · intro j q hji hj hq
            rcases happ j q hj with hj | ⟨h1, -⟩
            · exact hfirst j q hji hj hq
            · omega

theorem firstNearest_unique {rnd : ℚ → F32} {cam : Intrinsics} {cloud : List PointXYZRGBA}
    {u v : Int} {i i' : Nat} {p p' : PointXYZRGBA} (h : FirstNearest rnd cam cloud u v i p)
    (h' : FirstNearest rnd cam cloud u v i' p') : p = p' := by
  obtain ⟨hi, hm, hmin, hfirst⟩ := h
  obtain ⟨hi', hm', hmin', hfirst'⟩ := h'
  have hii : i = i' := by
    rcases Nat.lt_trichotomy i i' with hlt | heq | hgt
    · have h1 := hfirst' i p hlt hi hm
      have h2 := hmin' i p hi hm
      have h3 := hmin i' p' hi' hm'
      rw [h1] at h3; cases h3
    · exact heq
    · have h1 := hfirst i' p' hgt hi' hm'
      have h3 := hmin' i p hi hm
      rw [h1] at h3; cases h3
  subst hii
  rw [hi] at hi'
  exact Option.some.inj hi'

theorem composite_cell (rnd : ℚ → F32) (cam : Intrinsics) (cloud : List PointXYZRGBA)
    (u v : Int) (hu : 0 ≤ u) (hu' : u < cam.width_) (hv : 0 ≤ v) (hv' : v < cam.height_) :
    CellOk rnd cam cloud u v
      ((compositeMain rnd cam cloud).getD (cellIndex cam u v) PointXYZRGBA.zero) :=
  (composite_inv rnd cam cloud).2 u v hu hu' hv hv'

theorem composite_cell_empty_iff (rnd : ℚ → F32) (cam : Intrinsics) (cloud : List PointXYZRGBA)
    (u v : Int) (hu : 0 ≤ u) (hu' : u < cam.width_) (hv : 0 ≤ v) (hv' : v < cam.height_) :
    ((compositeMain rnd cam cloud).getD (cellIndex cam u v) PointXYZRGBA.zero).z.isnan = true ↔
      ∀ p ∈ cloud, ¬ mapsTo rnd cam p u v := by
  rcases composite_cell rnd cam cloud u v hu hu' hv hv' with ⟨hz, hnone⟩ | ⟨i, p, hcell, hi, hm, -⟩
  · exact ⟨fun _ => hnone, fun _ => hz⟩
  · constructor
    · intro hz
      rw [hcell, (mapsTo_spec hm).1] at hz
      cases hz
    · intro hnone
      exact absurd hm (hnone p (List.getElem?_mem hi))

theorem composite_cell_holds (rnd : ℚ → F32) (cam : Intrinsics) (cloud : List PointXYZRGBA)
    (u v : Int) (hu : 0 ≤ u) (hu' : u < cam.width_) (hv : 0 ≤ v) (hv' : v < cam.height_)
    (i : Nat) (p : PointXYZRGBA) (h : FirstNearest rnd cam cloud u v i p) :
    (compositeMain rnd cam cloud).getD (cellIndex cam u v) PointXYZRGBA.zero = p := by
  rcases composite_cell rnd cam cloud u v hu hu' hv hv' with ⟨-, hnone⟩ | ⟨i', p', hcell, h'⟩
  · exact absurd h.2.1 (hnone p (List.getElem?_mem h.1))
  · rw [hcell]
    exact firstNearest_unique h' h

theorem composite_cell_exists (rnd : ℚ → F32) (cam : Intrinsics) (cloud : List PointXYZRGBA)
    (u v : Int) (hu : 0 ≤ u) (hu' : u < cam.width_) (hv : 0 ≤ v) (hv' : v < cam.height_)
    (h : ∃ p ∈ cloud, mapsTo rnd cam p u v) :
    ∃ (i : Nat) (p : PointXYZRGBA), FirstNearest rnd cam cloud u v i p := by
  rcases composite_cell rnd cam cloud u v hu hu' hv hv' with ⟨-, hnone⟩ | ⟨i', p', -, h'⟩
  · obtain ⟨p, hp, hm⟩ := h
    exact absurd hm (hnone p hp)
  · exact ⟨i', p', h'⟩

theorem getElem?_pair {α : Type} {a b q : α} {j : Nat} (h : [a, b][j]? = some q) :
    (j = 0 ∧ q = a) ∨ (j = 1 ∧ q = b) := by
  rcases j with _ | _ | j
  · left; simpa using h.symm
  · right; simpa using h.symm
  · simp at h

/-- C1. Depth compositing is nearest-wins with first arrival on ties.  For every rounding
of the float arithmetic, camera, input sequence `cloud` and cell `(u, v)` of the grid:
`remapCloud` builds the same frame as the compositing loop of `main`; the cell is empty
(its `z` is NaN) iff no point of `cloud` accepted by `reprojectPoint` maps to `(u, v)`;
the cell holds the point `p` whenever `p` is the first (smallest sequence index) of the
accepted points of `(u, v)` with minimal `z`, and such a point exists as soon as one point
is accepted for `(u, v)`.  In particular two candidates with `z1 < z2` leave the `z1` point
in the cell in both arrival orders, and of two candidates of equal `z` the earlier stays. -/
theorem compositing_nearest_wins_first_on_ties (rnd : ℚ → F32) (cam : Intrinsics)
    (cloud : List PointXYZRGBA) (u v : Int) (hu : 0 ≤ u) (hu' : u < cam.width_) (hv : 0 ≤ v)
    (hv' : v < cam.height_) :
    remapCloud rnd cam cloud = compositeMain rnd cam cloud ∧
    (((compositeMain rnd cam cloud).getD (cellIndex cam u v) PointXYZRGBA.zero).z.isnan = true ↔
      ∀ p ∈ cloud, ¬ mapsTo rnd cam p u v) ∧
    (∀ (i : Nat) (p : PointXYZRGBA), FirstNearest rnd cam cloud u v i p →
      (compositeMain rnd cam cloud).getD (cellIndex cam u v) PointXYZRGBA.zero = p) ∧
    ((∃ p ∈ cloud, mapsTo rnd cam p u v) →
      ∃ (i : Nat) (p : PointXYZRGBA), FirstNearest rnd cam cloud u v i p) ∧
    (∀ p1 p2 : PointXYZRGBA, mapsTo rnd cam p1 u v → mapsTo rnd cam p2 u v →
      F32.lt p1.z p2.z = true →
      (compositeMain rnd cam [p1, p2]).getD (cellIndex cam u v) PointXYZRGBA.zero = p1 ∧
      (compositeMain rnd cam [p2, p1]).getD (cellIndex cam u v) PointXYZRGBA.zero = p1) ∧
    (∀ p1 p2 : PointXYZRGBA, mapsTo rnd cam p1 u v → mapsTo rnd cam p2 u v → p1.z = p2.z →
      (compositeMain rnd cam [p1, p2]).getD (cellIndex cam u v) PointXYZRGBA.zero = p1) := by
  refine ⟨remapCloud_eq rnd cam cloud, composite_cell_empty_iff rnd cam cloud u v hu hu' hv hv',
    composite_cell_holds rnd cam cloud u v hu hu' hv hv',
    composite_cell_exists rnd cam cloud u v hu hu' hv hv', ?_, ?_⟩
  · intro p1 p2 h1 h2 hlt
    constructor
    · apply composite_cell_holds rnd cam [p1, p2] u v hu hu' hv hv' 0 p1
      refine ⟨rfl, h1, ?_, ?_⟩
      · intro j q hj _
        rcases getElem?_pair hj with ⟨-, rfl⟩ | ⟨-, rfl⟩
        · exact f32_lt_irrefl _
        · exact f32_not_lt_of_lt hlt
      · intro j q hj0; omega
    · apply composite_cell_holds rnd cam [p2, p1] u v hu hu' hv hv' 1 p1
      refine ⟨rfl, h1, ?_, ?_⟩
      · intro j q hj _
        rcases getElem?_pair hj with ⟨-, rfl⟩ | ⟨-, rfl⟩
        · exact f32_not_lt_of_lt hlt
        · exact f32_lt_irrefl _
      · intro j q hj1 hj _
        rcases getElem?_pair hj with ⟨-, rfl⟩ | ⟨h, -⟩
        · exact hlt
        · omega
  · intro p1 p2 h1 h2 heq
    apply composite_cell_holds rnd cam [p1, p2] u v hu hu' hv hv' 0 p1
    refine ⟨rfl, h1, ?_, ?_⟩
    · intro j q hj _
      rcases getElem?_pair hj with ⟨-, rfl⟩ | ⟨-, rfl⟩
      · exact f32_lt_irrefl _
      · rw [heq]; exact f32_lt_irrefl _
    · intro j q hj0; omega

/-- Witness of C1: on the 2 x 2 unit camera, with a far point arriving before a near point
of the same pixel `(0, 0)`, the theorem applies and the cell is not empty. -/
theorem compositing_nearest_wins_first_on_ties_witness :
    ((0 : Int) ≤ 0 ∧ (0 : Int) < unitIntrinsics.width_ ∧ (0 : Int) < unitIntrinsics.height_) ∧
    (((compositeMain F32.fin unitIntrinsics
        [⟨F32.fin 0, F32.fin 0, F32.fin 2, 1⟩, ⟨F32.fin 0, F32.fin 0, F32.fin 1, 2⟩]).getD
      (cellIndex unitIntrinsics 0 0) PointXYZRGBA.zero).z.isnan = true ↔
      ∀ p ∈ [(⟨F32.fin 0, F32.fin 0, F32.fin 2, 1⟩ : PointXYZRGBA),
        ⟨F32.fin 0, F32.fin 0, F32.fin 1, 2⟩], ¬ mapsTo F32.fin unitIntrinsics p 0 0) :=
  ⟨⟨by decide, by decide, by decide⟩,
    (compositing_nearest_wins_first_on_ties F32.fin unitIntrinsics
      [⟨F32.fin 0, F32.fin 0, F32.fin 2, 1⟩, ⟨F32.fin 0, F32.fin 0, F32.fin 1, 2⟩] 0 0
      (by decide) (by decide) (by decide) (by decide)).2.1⟩

theorem truncQ_eq (q : ℚ) : F32.truncQ q = if 0 ≤ q then ⌊q⌋ else ⌈q⌉ := by
  unfold F32.truncQ
  split
  · next h =>
    rw [Int.tdiv_eq_ediv (Rat.num_nonneg.2 h) (Int.ofNat_nonneg _), Rat.floor_def]
  · next h =>
    have hneg : 0 ≤ -q := by linarith
    have h1 : ⌈q⌉ = -⌊-q⌋ := by rw [← Int.ceil_neg, neg_neg]
    rw [h1, Rat.floor_def, Rat.neg_num, Rat.neg_den,
      ← Int.tdiv_eq_ediv (by simpa using Rat.num_nonneg.2 hneg) (Int.ofNat_nonneg _),
      Int.neg_tdiv, neg_neg]

theorem toInt_fin_of_range (q : ℚ) (h1 : -2147483648 ≤ q) (h2 : q < 2147483648) :
    F32.toInt (F32.fin q) = if 0 ≤ q then ⌊q⌋ else ⌈q⌉ := by
  show (if -2147483648 ≤ F32.truncQ q ∧ F32.truncQ q < 2147483648 then F32.truncQ q
    else -2147483648) = _
  rw [truncQ_eq]
  have hlo : (-2147483648 : Int) ≤ if 0 ≤ q then ⌊q⌋ else ⌈q⌉ := by
    split
    · exact le_trans (by norm_num) (Int.floor_nonneg.2 ‹0 ≤ q›)
    · exact le_trans (Int.le_ceil_iff.2 (by push_cast; linarith)) (le_refl _)
  have hhi : (if 0 ≤ q then ⌊q⌋ else ⌈q⌉) < (2147483648 : Int) := by
    split
    · exact Int.floor_lt.2 (by push_cast; linarith)
    · next h =>
      have : ⌈q⌉ ≤ 0 := Int.ceil_le.2 (by push_cast; linarith)
      linarith
  rw [if_pos ⟨hlo, hhi⟩]

/-- C3 (claim as stated fails). On the 2 x 2 unit camera the point `(0.75, 0, 1)` is given
`u = 0` although the nearest integer of `0.75 * 1 / 1 + 0` is `1`, and the point
`(-0.75, 0, 1)` is accepted with `u = 0` although the nearest integer of its column
coordinate is `-1`, outside the image. -/
theorem reproject_rounds_counterexample :
    reprojectPoint F32.fin unitIntrinsics ⟨F32.fin (3 / 4), F32.fin 0, F32.fin 1, 0⟩
      = (true, 0, 0) ∧
    nearestInt ((3 / 4) * 1 / 1 + 0) = 1 ∧
    reprojectPoint F32.fin unitIntrinsics ⟨F32.fin (-3 / 4), F32.fin 0, F32.fin 1, 0⟩
      = (true, 0, 0) ∧
    nearestInt ((-3 / 4) * 1 / 1 + 0) = -1 := by
  refine ⟨by decide!, ?_, by decide!, ?_⟩
  · unfold nearestInt
    rw [Int.floor_eq_iff]
    norm_num
  · unfold nearestInt
    rw [Int.floor_eq_iff]
    norm_num

/-- C3 (amended). For every rounding of the float arithmetic, camera and point with finite
`z > 0`: the point is accepted iff the stored `u`, `v` satisfy `0 <= u < width_` and
`0 <= v < height_`; and when the float value `x * fx / z + cx` is a finite `q` within the
range of `int`, the stored `u` is `q` truncated toward zero (the floor of a non-negative
`q`, the ceiling of a negative one), likewise `v` for `y * fy / z + cy`. -/
theorem reproject_truncates (rnd : ℚ → F32) (cam : Intrinsics) (pt : PointXYZRGBA) (zq : ℚ)
    (hz : pt.z = F32.fin zq) (hpos : 0 < zq) :
    ((reprojectPoint rnd cam pt).1 = true ↔
      0 ≤ (reprojectPoint rnd cam pt).2.1 ∧ (reprojectPoint rnd cam pt).2.1 < cam.width_ ∧
      0 ≤ (reprojectPoint rnd cam pt).2.2 ∧ (reprojectPoint rnd cam pt).2.2 < cam.height_) ∧
    (∀ q : ℚ, F32.add rnd (F32.div rnd (F32.mul rnd pt.x cam.focal_length_x_) pt.z)
        cam.principal_point_x_ = F32.fin q → -2147483648 ≤ q → q < 2147483648 →
      (reprojectPoint rnd cam pt).2.1 = if 0 ≤ q then ⌊q⌋ else ⌈q⌉) ∧
    (∀ q : ℚ, F32.add rnd (F32.div rnd (F32.mul rnd pt.y cam.focal_length_y_) pt.z)
        cam.principal_point_y_ = F32.fin q → -2147483648 ≤ q → q < 2147483648 →
      (reprojectPoint rnd cam pt).2.2 = if 0 ≤ q then ⌊q⌋ else ⌈q⌉) := by
  refine ⟨?_, ?_, ?_⟩
  · unfold reprojectPoint
    simp only [hz, F32.isnan, F32.lt, Bool.not_false, Bool.true_and, Bool.and_eq_true,
      decide_eq_true_eq, hpos, and_assoc, true_and]
  · intro q hq h1 h2
    show F32.toInt _ = _
    rw [hq]
    exact toInt_fin_of_range q h1 h2
  · intro q hq h1 h2
    show F32.toInt _ = _
    rw [hq]
    exact toInt_fin_of_range q h1 h2

/-- Witness of C3 (amended): the point `(0.75, 0, 1)` on the 2 x 2 unit camera. -/
theorem reproject_truncates_witness :
    ((⟨F32.fin (3 / 4), F32.fin 0, F32.fin 1, 0⟩ : PointXYZRGBA).z = F32.fin 1 ∧ (0 : ℚ) < 1) ∧
    ((reprojectPoint F32.fin unitIntrinsics ⟨F32.fin (3 / 4), F32.fin 0, F32.fin 1, 0⟩).1 = true ↔
      0 ≤ (reprojectPoint F32.fin unitIntrinsics
        ⟨F32.fin (3 / 4), F32.fin 0, F32.fin 1, 0⟩).2.1 ∧
      (reprojectPoint F32.fin unitIntrinsics
        ⟨F32.fin (3 / 4), F32.fin 0, F32.fin 1, 0⟩).2.1 < unitIntrinsics.width_ ∧
      0 ≤ (reprojectPoint F32.fin unitIntrinsics
        ⟨F32.fin (3 / 4), F32.fin 0, F32.fin 1, 0⟩).2.2 ∧
      (reprojectPoint F32.fin unitIntrinsics
        ⟨F32.fin (3 / 4), F32.fin 0, F32.fin 1, 0⟩).2.2 < unitIntrinsics.height_) :=
  ⟨⟨rfl, by norm_num⟩,
    (reproject_truncates F32.fin unitIntrinsics ⟨F32.fin (3 / 4), F32.fin 0, F32.fin 1, 0⟩ 1
      rfl (by norm_num)).1⟩

theorem reproject_rejects_of_bad (rnd : ℚ → F32) (cam : Intrinsics) (pt : PointXYZRGBA)
    (hbad : pt.z.isnan = true ∨ F32.le pt.z (F32.fin 0) = true) :
    (reprojectPoint rnd cam pt).1 = false := by
  unfold reprojectPoint
  rcases hz : pt.z with _ | _ | _ | q
  · simp [F32.isnan]
  · simp [F32.lt]
  · rw [hz] at hbad; simp [F32.isnan, F32.le] at hbad
  · rw [hz] at hbad
    simp only [F32.isnan, F32.le, decide_eq_true_eq, false_or] at hbad
    have : ¬ (0 < q) := not_lt.2 (by simpa using hbad)
    simp [F32.lt, this]

theorem compositeStep_of_rejected (rnd : ℚ → F32) (cam : Intrinsics) (g : List PointXYZRGBA)
    (pt : PointXYZRGBA) (h : (reprojectPoint rnd cam pt).1 = false) :
    compositeStep rnd cam g pt = g := by
  unfold compositeStep
  rcases hr : reprojectPoint rnd cam pt with ⟨b, u, v⟩
  rw [hr] at h
  simp only at h
  subst h
  rfl

theorem composite_drop_rejected (rnd : ℚ → F32) (cam : Intrinsics) (pt : PointXYZRGBA)
    (h : (reprojectPoint rnd cam pt).1 = false) (pre post : List PointXYZRGBA) :
    compositeMain rnd cam (pre ++ pt :: post) = compositeMain rnd cam (pre ++ post) := by
  unfold compositeMain
  rw [List.foldl_append, List.foldl_cons, compositeStep_of_rejected rnd cam _ pt h,
    List.foldl_append]

/-- C8 (claim as stated fails). With the file-scope camera (640 x 480, focal length 525,
principal point (319.5, 239.5)) the point `(0, 0, +infinity)` is accepted by
`reprojectPoint` for pixel `(319, 239)` and occupies that cell of the composited frame. -/
theorem infinite_depth_counterexample :
    reprojectPoint F32.fin defaultIntrinsics ⟨F32.fin 0, F32.fin 0, F32.pinf, 0⟩
      = (true, 319, 239) ∧
    (compositeMain F32.fin defaultIntrinsics [⟨F32.fin 0, F32.fin 0, F32.pinf, 0⟩]).getD
      (cellIndex defaultIntrinsics 319 239) PointXYZRGBA.zero
      = ⟨F32.fin 0, F32.fin 0, F32.pinf, 0⟩ := by
  have h : reprojectPoint F32.fin defaultIntrinsics ⟨F32.fin 0, F32.fin 0, F32.pinf, 0⟩
      = (true, 319, 239) := by decide!
  refine ⟨h, ?_⟩
  apply composite_cell_holds F32.fin defaultIntrinsics _ 319 239 (by decide) (by decide)
    (by decide) (by decide) 0
  refine ⟨rfl, h, ?_, ?_⟩
  · intro j q hj _
    rcases j with _ | j
    · simp only [List.getElem?_cons_zero, Option.some.injEq] at hj
      subst hj
      exact f32_lt_irrefl _
    · simp at hj
  · intro j q hj0; omega

/-- C8 (amended). For every rounding of the float arithmetic, camera and point, whatever
its `x` and `y`: if `z` is NaN or `z <= 0` (minus infinity included), `reprojectPoint`
rejects the point; the composited frame (of `main` and of `remapCloud`) is the same with
the point inserted anywhere in the input sequence as without it; and no non-empty cell of
a composited frame holds the point. -/
theorem invalid_depth_discarded (rnd : ℚ → F32) (cam : Intrinsics) (pt : PointXYZRGBA)
    (hbad : pt.z.isnan = true ∨ F32.le pt.z (F32.fin 0) = true) :
    (reprojectPoint rnd cam pt).1 = false ∧
    (∀ pre post : List PointXYZRGBA,
      compositeMain rnd cam (pre ++ pt :: post) = compositeMain rnd cam (pre ++ post) ∧
      remapCloud rnd cam (pre ++ pt :: post) = remapCloud rnd cam (pre ++ post)) ∧
    (∀ (cloud : List PointXYZRGBA) (u v : Int), 0 ≤ u → u < cam.width_ → 0 ≤ v →
      v < cam.height_ →
      ((compositeMain rnd cam cloud).getD (cellIndex cam u v) PointXYZRGBA.zero).z.isnan = false →
      (compositeMain rnd cam cloud).getD (cellIndex cam u v) PointXYZRGBA.zero ≠ pt) := by
  have hrej := reproject_rejects_of_bad rnd cam pt hbad
  refine ⟨hrej, ?_, ?_⟩
  · intro pre post
    rw [remapCloud_eq, remapCloud_eq]
    exact ⟨composite_drop_rejected rnd cam pt hrej pre post,
      composite_drop_rejected rnd cam pt hrej pre post⟩
  · intro cloud u v hu hu' hv hv' hne heq
    rcases composite_cell rnd cam cloud u v hu hu' hv hv' with ⟨hz, -⟩ | ⟨i, p, hcell, -, hm, -⟩
    · rw [hz] at hne; cases hne
    · rw [hcell] at heq
      subst heq
      unfold mapsTo at hm
      rw [hm] at hrej
      cases hrej

/-- Witness of C8 (amended): the point `(1, 1, -1)` on the 2 x 2 unit camera. -/
theorem invalid_depth_discarded_witness :
    ((⟨F32.fin 1, F32.fin 1, F32.fin (-1), 0⟩ : PointXYZRGBA).z.isnan = true ∨
      F32.le (⟨F32.fin 1, F32.fin 1, F32.fin (-1), 0⟩ : PointXYZRGBA).z (F32.fin 0) = true) ∧
    (reprojectPoint F32.fin unitIntrinsics ⟨F32.fin 1, F32.fin 1, F32.fin (-1), 0⟩).1 = false :=
  ⟨Or.inr (by decide!),
    (invalid_depth_discarded F32.fin unitIntrinsics ⟨F32.fin 1, F32.fin 1, F32.fin (-1), 0⟩
      (Or.inr (by decide!))).1⟩

/-! ### The radius search -/

theorem sqDist_nonneg (p q : PointXYZ) : 0 ≤ sqDist p q := by
  unfold sqDist
  have h1 := mul_self_nonneg (p.x - q.x)
  have h2 := mul_self_nonneg (p.y - q.y)
  have h3 := mul_self_nonneg (p.z - q.z)
  linarith

theorem sqDist_self (p : PointXYZ) : sqDist p p = 0 := by
  unfold sqDist
  ring

theorem sqDist_comm (p q : PointXYZ) : sqDist p q = sqDist q p := by
  unfold sqDist
  ring

theorem mem_radiusSearch {cloud : List PointXYZ} {i : Nat} {r : ℚ} {n : Nat × ℚ} :
    n ∈ radiusSearch cloud i r ↔
      n.1 < cloud.length ∧
      n.2 = sqDist (cloud.getD i PointXYZ.zero) (cloud.getD n.1 PointXYZ.zero) ∧
      n.2 < r * r := by
  unfold radiusSearch
  rw [List.mem_insertionSort, List.mem_filter, List.mem_map]
  constructor
  · rintro ⟨⟨j, hj, rfl⟩, hlt⟩
    exact ⟨List.mem_range.1 hj, rfl, by simpa using hlt⟩
  · rintro ⟨h1, h2, h3⟩
    refine ⟨⟨n.1, List.mem_range.2 h1, ?_⟩, by simpa using h3⟩
    exact Prod.ext rfl h2.symm

theorem radiusSearch_sorted (cloud : List PointXYZ) (i : Nat) (r : ℚ) :
    List.Sorted nearerEq (radiusSearch cloud i r) :=
  List.sorted_insertionSort nearerEq _

/-- A point reported by the search from `i` that has a larger index than `i` is not the
first entry of the result. -/
theorem mem_drop_radiusSearch {cloud : List PointXYZ} {i k : Nat} {r : ℚ} (hi : i < k)
    (hk : k < cloud.length)
    (hd : sqDist (cloud.getD i PointXYZ.zero) (cloud.getD k PointXYZ.zero) < r * r) :
    (k, sqDist (cloud.getD i PointXYZ.zero) (cloud.getD k PointXYZ.zero)) ∈
      (radiusSearch cloud i r).drop 1 := by
  have hkm : (k, sqDist (cloud.getD i PointXYZ.zero) (cloud.getD k PointXYZ.zero)) ∈
      radiusSearch cloud i r := mem_radiusSearch.2 ⟨hk, rfl, hd⟩
  have him : (i, (0 : ℚ)) ∈ radiusSearch cloud i r :=
    mem_radiusSearch.2 ⟨lt_trans hi hk, (sqDist_self _).symm,
      lt_of_le_of_lt (sqDist_nonneg _ _) hd⟩
  have hs := radiusSearch_sorted cloud i r
  rcases hS : radiusSearch cloud i r with _ | ⟨h, t⟩
  · rw [hS] at hkm; cases hkm
  · rw [hS] at hkm him hs
    rw [List.drop_one, List.tail_cons]
    rcases List.mem_cons.1 hkm with heq | hmem
    · exfalso
      have hle : nearerEq h (i, 0) := by
        rcases List.mem_cons.1 him with h0 | h0
        · rw [← h0]; exact Or.inr ⟨rfl, le_refl _⟩
        · exact List.rel_of_sorted_cons hs _ h0
      rw [← heq] at hle
      rcases hle with hlt | ⟨-, hle⟩
      · exact absurd hlt (not_lt.2 (sqDist_nonneg _ _))
      · exact absurd hi (not_lt.2 hle)
    · exact hmem

/-! ### The scan of `flattenVertices` -/

theorem foldl_assign_length (min_dist : ℚ) (idx : Int) (t : List (Nat × ℚ)) (R : List Int) :
    (t.foldl (fun r n => if n.2 < min_dist then r.set n.1 idx else r) R).length = R.length := by
  induction t generalizing R with
  | nil => rfl
  | cons n t ih =>
    rw [List.foldl_cons, ih]
    split <;> simp

theorem foldl_assign_getD (min_dist : ℚ) (idx : Int) (t : List (Nat × ℚ)) (R : List Int)
    (k : Nat) (hk : k < R.length) :
    (t.foldl (fun r n => if n.2 < min_dist then r.set n.1 idx else r) R).getD k (-1) =
      if ∃ n ∈ t, n.1 = k ∧ n.2 < min_dist then idx else R.getD k (-1) := by
  induction t generalizing R with
  | nil => simp
  | cons n t ih =>
    rw [List.foldl_cons]
    have hlen : k < (if n.2 < min_dist then R.set n.1 idx else R).length := by
      split <;> simpa using hk
    rw [ih _ hlen]
    by_cases ht : ∃ m ∈ t, m.1 = k ∧ m.2 < min_dist
    · have : ∃ m ∈ n :: t, m.1 = k ∧ m.2 < min_dist := by
        obtain ⟨m, hm, h⟩ := ht
        exact ⟨m, List.mem_cons_of_mem _ hm, h⟩
      rw [if_pos ht, if_pos this]
    · rw [if_neg ht]
      by_cases hn : n.1 = k ∧ n.2 < min_dist
      · have : ∃ m ∈ n :: t, m.1 = k ∧ m.2 < min_dist := ⟨n, List.mem_cons_self _ _, hn⟩
        rw [if_pos this, if_pos hn.2, List.getD_eq_getElem?_getD, hn.1,
          List.getElem?_set_self hk]
        rfl
      · have : ¬ ∃ m ∈ n :: t, m.1 = k ∧ m.2 < min_dist := by
          rintro ⟨m, hm, h⟩
          rcases List.mem_cons.1 hm with rfl | hm
          · exact hn h
          · exact ht ⟨m, hm, h⟩
        rw [if_neg this]
        split
        · next hlt =>
          have hne : n.1 ≠ k := fun h => hn ⟨h, hlt⟩
          rw [List.getD_eq_getElem?_getD, List.getElem?_set_ne hne, ← List.getD_eq_getElem?_getD]
        · rfl

theorem Hit.mergeNear {vertices : List PointXYZ} {min_dist : ℚ} {i k : Nat}
    (h : Hit vertices min_dist i k) : k < vertices.length ∧ MergeNear vertices min_dist i k := by
  obtain ⟨n, hn, rfl, hlt⟩ := h
  have hm := mem_radiusSearch.1 (List.mem_of_mem_drop hn)
  refine ⟨hm.1, ?_, ?_⟩
  · rw [← hm.2.1]; exact hm.2.2
  · rw [← hm.2.1]; exact hlt

theorem hit_of_mergeNear {vertices : List PointXYZ} {min_dist : ℚ} {i k : Nat} (hik : i < k)
    (hk : k < vertices.length) (h : MergeNear vertices min_dist i k) :
    Hit vertices min_dist i k :=
  ⟨_, mem_drop_radiusSearch hik hk h.1, rfl, h.2⟩

theorem mergeNear_symm {vertices : List PointXYZ} {min_dist : ℚ} {i k : Nat}
    (h : MergeNear vertices min_dist i k) : MergeNear vertices min_dist k i := by
  unfold MergeNear at *
  rw [sqDist_comm]
  exact h

theorem scanStep_skip {vertices : List PointXYZ} {min_dist : ℚ} {st : ScanState} {i : Nat}
    (h : 0 ≤ st.vertex_remap.getD i (-1)) : scanStep vertices min_dist st i = st := by
  unfold scanStep
  rw [if_pos h]

theorem scanStep_rep_hit {vertices : List PointXYZ} {min_dist : ℚ} {st : ScanState} {i : Nat}
    (h : st.vertex_remap.getD i (-1) < 0) (hi : i < st.vertex_remap.length) (k : Nat)
    (hk : k < st.vertex_remap.length) (hh : k = i ∨ Hit vertices min_dist i k) :
    (scanStep vertices min_dist st i).vertex_remap.getD k (-1) = st.idx := by
  unfold scanStep
  rw [if_neg (not_le.2 h)]
  show (assignNeighbors _ _ _ _).getD k (-1) = _
  unfold assignNeighbors
  rw [foldl_assign_getD _ _ _ _ _ (by simpa using hk)]
  by_cases hh' : Hit vertices min_dist i k
  · exact if_pos hh'
  · have hki : k = i := by tauto
    subst hki
    rw [List.getD_eq_getElem?_getD, List.getElem?_set_self hi]
    exact if_neg hh'

theorem scanStep_rep_miss {vertices : List PointXYZ} {min_dist : ℚ} {st : ScanState} {i : Nat}
    (h : st.vertex_remap.getD i (-1) < 0) (k : Nat)
    (hk : k < st.vertex_remap.length) (hki : k ≠ i) (hh : ¬ Hit vertices min_dist i k) :
    (scanStep vertices min_dist st i).vertex_remap.getD k (-1) =
      st.vertex_remap.getD k (-1) := by
  unfold scanStep
  rw [if_neg (not_le.2 h)]
  show (assignNeighbors _ _ _ _).getD k (-1) = _
  unfold assignNeighbors
  rw [foldl_assign_getD _ _ _ _ _ (by simpa using hk)]
  rw [List.getD_eq_getElem?_getD, List.getElem?_set_ne (Ne.symm hki),
        ← List.getD_eq_getElem?_getD]
  exact if_neg hh

theorem scanStep_length (vertices : List PointXYZ) (min_dist : ℚ) (st : ScanState) (i : Nat) :
    (scanStep vertices min_dist st i).vertex_remap.length = st.vertex_remap.length := by
  unfold scanStep
  split
  · rfl
  · show (assignNeighbors _ _ _ _).length = _
    unfold assignNeighbors
    rw [foldl_assign_length]
    simp

theorem scanState_succ (vertices : List PointXYZ) (min_dist : ℚ) (p : Nat) :
    scanState vertices min_dist (p + 1) =
      scanStep vertices min_dist (scanState vertices min_dist p) p := by
  unfold scanState
  rw [List.range_succ, List.foldl_append]
  rfl

theorem scanState_length (vertices : List PointXYZ) (min_dist : ℚ) (p : Nat) :
    (scanState vertices min_dist p).vertex_remap.length = vertices.length := by
  induction p with
  | zero => simp [scanState]
  | succ p ih => rw [scanState_succ, scanStep_length, ih]

theorem scan_inv (vertices : List PointXYZ) (min_dist : ℚ) (p : Nat)
    (hp : p ≤ vertices.length) :
    0 ≤ (scanState vertices min_dist p).idx ∧
    (scanState vertices min_dist p).idx = (scanState vertices min_dist p).vertices_new.length ∧
    (∀ k, k < vertices.length →
      (scanState vertices min_dist p).vertex_remap.getD k (-1) = -1 ∨
      (0 ≤ (scanState vertices min_dist p).vertex_remap.getD k (-1) ∧
        (scanState vertices min_dist p).vertex_remap.getD k (-1) <
          (scanState vertices min_dist p).idx)) ∧
    (∀ k, k < p → k < vertices.length →
      0 ≤ (scanState vertices min_dist p).vertex_remap.getD k (-1)) := by
  induction p with
  | zero =>
    refine ⟨le_refl _, rfl, ?_, ?_⟩
    · intro k hk
      left
      simp [scanState, hk]
    · intro k hk; omega
  | succ p ih =>
    obtain ⟨h1, h2, h3, h4⟩ := ih (Nat.le_of_succ_le hp)
    have hlen := scanState_length vertices min_dist p
    rw [scanState_succ]
    generalize scanState vertices min_dist p = st at h1 h2 h3 h4 hlen
    by_cases hskip : 0 ≤ st.vertex_remap.getD p (-1)
    · rw [scanStep_skip hskip]
      refine ⟨h1, h2, h3, ?_⟩
      intro k hk hkn
      rcases Nat.lt_succ_iff_lt_or_eq.1 hk with hk | rfl
      · exact h4 k hk hkn
      · exact hskip
    · have hrep : st.vertex_remap.getD p (-1) < 0 := not_le.1 hskip
      have hidx : (scanStep vertices min_dist st p).idx = st.idx + 1 := by
        unfold scanStep; rw [if_neg hskip]
      have hnew : (scanStep vertices min_dist st p).vertices_new =
          st.vertices_new ++ [vertices.getD p PointXYZ.zero] := by
        unfold scanStep; rw [if_neg hskip]
      have hpn : p < vertices.length := hp
      refine ⟨by rw [hidx]; omega, by rw [hidx, hnew, h2]; simp, ?_, ?_⟩
      · intro k hk
        by_cases hh : k = p ∨ Hit vertices min_dist p k
        · right
          rw [scanStep_rep_hit hrep (by omega) k (by omega) hh, hidx]
          omega
        · rw [scanStep_rep_miss hrep k (by omega) (by tauto) (by tauto), hidx]
          rcases h3 k hk with h | h
          · exact Or.inl h
          · exact Or.inr ⟨h.1, by omega⟩
      · intro k hk hkn
        by_cases hh : k = p ∨ Hit vertices min_dist p k
        · rw [scanStep_rep_hit hrep (by omega) k (by omega) hh]
          exact h1
        · rw [scanStep_rep_miss hrep k (by omega) (by tauto) (by tauto)]
          rcases Nat.lt_succ_iff_lt_or_eq.1 hk with hk | rfl
          · exact h4 k hk hkn
          · exact absurd (Or.inl rfl) hh

theorem assigned_mono (vertices : List PointXYZ) (min_dist : ℚ) {p q k : Nat} (hpq : p ≤ q)
    (hq : q ≤ vertices.length) (hk : k < vertices.length)
    (h : 0 ≤ (scanState vertices min_dist p).vertex_remap.getD k (-1)) :
    0 ≤ (scanState vertices min_dist q).vertex_remap.getD k (-1) := by
  induction q with
  | zero =>
    have : p = 0 := by omega
    subst this
    exact h
  | succ q ih =>
    rcases Nat.lt_succ_iff_lt_or_eq.1 (Nat.lt_succ_of_le hpq) with hlt | heq
    · have ih' := ih (Nat.le_of_lt_succ hlt) (Nat.le_of_succ_le hq)
      have hlen := scanState_length vertices min_dist q
      have hinv := (scan_inv vertices min_dist q (Nat.le_of_succ_le hq)).1
      rw [scanState_succ]
      generalize scanState vertices min_dist q = st at ih' hlen hinv
      by_cases hskip : 0 ≤ st.vertex_remap.getD q (-1)
      · rw [scanStep_skip hskip]; exact ih'
      · have hrep : st.vertex_remap.getD q (-1) < 0 := not_le.1 hskip
        by_cases hh : k = q ∨ Hit vertices min_dist q k
        · rw [scanStep_rep_hit hrep (by omega) k (by omega) hh]
          exact hinv
        · rw [scanStep_rep_miss hrep k (by omega) (by tauto) (by tauto)]
          exact ih'
    · subst heq
      exact h

theorem flattenRemap_length (vertices : List PointXYZ) (min_dist : ℚ) :
    (flattenRemap vertices min_dist).length = vertices.length :=
  scanState_length vertices min_dist vertices.length

theorem flattenRemap_valid (vertices : List PointXYZ) (min_dist : ℚ) (k : Nat)
    (hk : k < vertices.length) :
    0 ≤ (flattenRemap vertices min_dist).getD k (-1) ∧
    (flattenRemap vertices min_dist).getD k (-1) <
      ((scanState vertices min_dist vertices.length).vertices_new.length : Int) := by
  obtain ⟨-, h2, h3, h4⟩ := scan_inv vertices min_dist vertices.length (le_refl _)
  have h0 := h4 k hk hk
  unfold flattenRemap
  rcases h3 k hk with h | h
  · rw [h] at h0; omega
  · exact ⟨h.1, h2 ▸ h.2⟩

/-! ### The face loop of `flattenVertices` -/

theorem foldl_flattenFaceStep (R : List Int) (faces kept : List (List Nat)) :
    faces.foldl (flattenFaceStep R) kept =
      kept ++ (faces.map (remapFace R)).filter (fun f => !(degenerate f)) := by
  induction faces generalizing kept with
  | nil => simp
  | cons f faces ih =>
    rw [List.foldl_cons, ih, List.map_cons]
    unfold flattenFaceStep
    by_cases hd : degenerate (remapFace R f) = true
    · rw [if_pos hd, List.filter_cons_of_neg (by simp [hd])]
    · rw [if_neg hd, List.filter_cons_of_pos (by simpa using hd)]
      simp

theorem flattenVertices_polygons (mesh : PolygonMesh) (min_dist : ℚ) :
    (flattenVertices mesh min_dist).polygons =
      (mesh.polygons.map (remapFace (flattenRemap mesh.cloud min_dist))).filter
        (fun f => !(degenerate f)) := by
  unfold flattenVertices
  simp only [foldl_flattenFaceStep, List.nil_append]

theorem exists_triple {f : List Nat} (h : f.length = 3) : ∃ a b c, f = [a, b, c] := by
  rcases f with _ | ⟨a, _ | ⟨b, _ | ⟨c, _ | ⟨d, t⟩⟩⟩⟩ <;> simp at h
  exact ⟨a, b, c, rfl⟩

theorem degenerate_eq_false_iff_nodup {f : List Nat} (h : f.length = 3) :
    degenerate f = false ↔ f.Nodup := by
  obtain ⟨a, b, c, rfl⟩ := exists_triple h
  simp only [degenerate, List.getD_eq_getElem?_getD, List.getElem?_cons_zero,
    List.getElem?_cons_succ, Option.getD_some, Bool.or_eq_false_iff, beq_eq_false_iff_ne,
    List.nodup_cons, List.mem_cons, List.mem_singleton, List.not_mem_nil, not_or,
    List.nodup_nil, and_true, not_false_eq_true]
  constructor
  · rintro ⟨⟨h1, h2⟩, h3⟩
    exact ⟨⟨h1, fun h => h3 h.symm⟩, h2⟩
  · rintro ⟨⟨h1, h2⟩, h3⟩
    exact ⟨⟨h1, h3⟩, fun h => h2 h.symm⟩

/-- C9. The merge pass drops the degenerate faces and leaves a well-indexed mesh.  For
every mesh of triangles with in-range indices and every `min_dist`: `vertex_remap` has
one entry per input vertex and each entry is a valid index into the compacted vertex
sequence; every remaining face has three pairwise distinct indices, each less than the
number of compacted vertices; and the remaining faces are, in original order, the
remapped input faces whose three remapped indices are pairwise distinct. -/
theorem flatten_drops_degenerate_faces (mesh : PolygonMesh) (min_dist : ℚ)
    (hmesh : TriangleMesh mesh) :
    (flattenRemap mesh.cloud min_dist).length = mesh.cloud.length ∧
    (∀ k, k < mesh.cloud.length →
      0 ≤ (flattenRemap mesh.cloud min_dist).getD k (-1) ∧
      (flattenRemap mesh.cloud min_dist).getD k (-1) <
        ((flattenVertices mesh min_dist).cloud.length : Int)) ∧
    (∀ f ∈ (flattenVertices mesh min_dist).polygons,
      f.length = 3 ∧ f.Nodup ∧ ∀ i ∈ f, i < (flattenVertices mesh min_dist).cloud.length) ∧
    (flattenVertices mesh min_dist).polygons =
      (mesh.polygons.map (remapFace (flattenRemap mesh.cloud min_dist))).filter
        (fun f => decide f.Nodup) := by
  have hvalid := flattenRemap_valid mesh.cloud min_dist
  have hlen3 : ∀ f ∈ mesh.polygons.map (remapFace (flattenRemap mesh.cloud min_dist)),
      f.length = 3 := by
    intro f hf
    obtain ⟨g, hg, rfl⟩ := List.mem_map.1 hf
    simpa [remapFace] using (hmesh g hg).1
  refine ⟨flattenRemap_length _ _, hvalid, ?_, ?_⟩
  · intro f hf
    rw [flattenVertices_polygons, List.mem_filter] at hf
    obtain ⟨hfm, hnd⟩ := hf
    refine ⟨hlen3 f hfm, (degenerate_eq_false_iff_nodup (hlen3 f hfm)).1 (by simpa using hnd), ?_⟩
    obtain ⟨g, hg, rfl⟩ := List.mem_map.1 hfm
    intro i hi
    obtain ⟨k, hk, rfl⟩ := List.mem_map.1 hi
    have := hvalid k ((hmesh g hg).2 k hk)
    show _ < (scanState mesh.cloud min_dist mesh.cloud.length).vertices_new.length
    omega
  · rw [flattenVertices_polygons]
    apply List.filter_congr
    intro f hf
    have h := degenerate_eq_false_iff_nodup (hlen3 f hf)
    by_cases hd : degenerate f = false
    · rw [hd, decide_eq_true (h.1 hd)]; rfl
    · have hn : ¬ f.Nodup := fun hn => hd (h.2 hn)
      rw [Bool.not_eq_false] at hd
      rw [hd, decide_eq_false hn]; rfl

/-- Witness of C9: a mesh of two triangles over three vertices. -/
theorem flatten_drops_degenerate_faces_witness :
    TriangleMesh ⟨[⟨0, 0, 0⟩, ⟨3 / 8, 0, 0⟩, ⟨3 / 4, 0, 0⟩], [[0, 1, 2], [0, 2, 1]]⟩ ∧
    (flattenRemap (PolygonMesh.mk [⟨0, 0, 0⟩, ⟨3 / 8, 0, 0⟩, ⟨3 / 4, 0, 0⟩]
      [[0, 1, 2], [0, 2, 1]]).cloud (1 / 2)).length = 3 :=
  ⟨by unfold TriangleMesh; decide,
    (flatten_drops_degenerate_faces ⟨[⟨0, 0, 0⟩, ⟨3 / 8, 0, 0⟩, ⟨3 / 4, 0, 0⟩],
      [[0, 1, 2], [0, 2, 1]]⟩ (1 / 2) (by unfold TriangleMesh; decide)).1⟩

/-! ### The single-hop rule -/

theorem rep_step_assigns {vertices : List PointXYZ} {min_dist : ℚ} {a k : Nat}
    (ha : a < vertices.length) (hk : k < vertices.length)
    (hrep : IsRepresentative vertices min_dist a) (hh : k = a ∨ Hit vertices min_dist a k) :
    (scanState vertices min_dist (a + 1)).vertex_remap.getD k (-1) =
      (scanState vertices min_dist a).idx := by
  rw [scanState_succ]
  have hlen := scanState_length vertices min_dist a
  exact scanStep_rep_hit hrep (by omega) k (by omega) hh

/-- A vertex in merge range of an earlier representative is never a representative. -/
theorem not_rep_of_near_rep {vertices : List PointXYZ} {min_dist : ℚ} {a c : Nat} (hac : a < c)
    (hc : c < vertices.length) (hrep : IsRepresentative vertices min_dist a)
    (hnear : MergeNear vertices min_dist a c) : ¬ IsRepresentative vertices min_dist c := by
  intro hrc
  have h1 := rep_step_assigns (lt_trans hac hc) hc hrep (Or.inr (hit_of_mergeNear hac hc hnear))
  have h0 := (scan_inv vertices min_dist a (by omega)).1
  have h2 : 0 ≤ (scanState vertices min_dist (a + 1)).vertex_remap.getD c (-1) := by
    rw [h1]; exact h0
  have h3 := assigned_mono vertices min_dist (Nat.succ_le_of_lt hac) (Nat.le_of_lt hc) hc h2
  unfold IsRepresentative at hrc
  omega

theorem rep_keeps_index {vertices : List PointXYZ} {min_dist : ℚ} {a : Nat}
    (ha : a < vertices.length) (hrep : IsRepresentative vertices min_dist a) (p : Nat)
    (hap : a < p) (hp : p ≤ vertices.length) :
    (scanState vertices min_dist p).vertex_remap.getD a (-1) =
      (scanState vertices min_dist a).idx := by
  induction p with
  | zero => omega
  | succ p ih =>
    rcases Nat.lt_succ_iff_lt_or_eq.1 hap with hlt | heq
    · have ih' := ih hlt (Nat.le_of_succ_le hp)
      have hlen := scanState_length vertices min_dist p
      rw [scanState_succ]
      by_cases hskip : 0 ≤ (scanState vertices min_dist p).vertex_remap.getD p (-1)
      · rw [scanStep_skip hskip]; exact ih'
      · have hrp : IsRepresentative vertices min_dist p := not_le.1 hskip
        have hmiss : ¬ Hit vertices min_dist p a := by
          intro hh
          exact not_rep_of_near_rep hlt hp hrep (mergeNear_symm hh.mergeNear.2) hrp
        rw [scanStep_rep_miss hrp a (by omega) (by omega) hmiss]
        exact ih'
    · subst heq
      exact rep_step_assigns ha ha hrep (Or.inl rfl)

theorem neighbor_keeps_index {vertices : List PointXYZ} {min_dist : ℚ} {a b : Nat}
    (hab : a < b) (hb : b < vertices.length) (hrep : IsRepresentative vertices min_dist a)
    (hnear : MergeNear vertices min_dist a b)
    (hlast : ∀ c, a < c → c < vertices.length → IsRepresentative vertices min_dist c →
      ¬ MergeNear vertices min_dist c b)
    (p : Nat) (hap : a < p) (hp : p ≤ vertices.length) :
    (scanState vertices min_dist p).vertex_remap.getD b (-1) =
      (scanState vertices min_dist a).idx := by
  induction p with
  | zero => omega
  | succ p ih =>
    rcases Nat.lt_succ_iff_lt_or_eq.1 hap with hlt | heq
    · have ih' := ih hlt (Nat.le_of_succ_le hp)
      have hlen := scanState_length vertices min_dist p
      rw [scanState_succ]
      by_cases hskip : 0 ≤ (scanState vertices min_dist p).vertex_remap.getD p (-1)
      · rw [scanStep_skip hskip]; exact ih'
      · have hrp : IsRepresentative vertices min_dist p := not_le.1 hskip
        have hmiss : ¬ Hit vertices min_dist p b := fun hh =>
          hlast p hlt hp hrp hh.mergeNear.2
        have hne : b ≠ p := by
          rintro rfl
          have h0 := (scan_inv vertices min_dist a (by omega)).1
          unfold IsRepresentative at hrp
          omega
        rw [scanStep_rep_miss hrp b (by omega) hne hmiss]
        exact ih'
    · subst heq
      exact rep_step_assigns (lt_trans hab hb) hb hrep (Or.inr (hit_of_mergeNear hab hb hnear))

/-- C2 (claim as stated fails). Three vertices on a line at `0`, `3/8`, `3/4` merged with
`min_dist = 1/2`: vertex 0 is unassigned when reached and vertex 1 is at distance
`3/8 < 1/2` of it, yet the final remap is `[0, 1, 1]`: vertex 1, given index 0 by the
scan of vertex 0, is given index 1 again by the scan of vertex 2.  And two vertices at
distance 3 merged with `min_dist = 4` keep two distinct indices, the squared distance 9
reported by the radius search not being below `min_dist`. -/
theorem merge_single_hop_counterexample :
    IsRepresentative [⟨0, 0, 0⟩, ⟨3 / 8, 0, 0⟩, ⟨3 / 4, 0, 0⟩] (1 / 2) 0 ∧
    sqDist ⟨0, 0, 0⟩ ⟨3 / 8, 0, 0⟩ < (1 / 2) * (1 / 2) ∧
    flattenRemap [⟨0, 0, 0⟩, ⟨3 / 8, 0, 0⟩, ⟨3 / 4, 0, 0⟩] (1 / 2) = [0, 1, 1] ∧
    IsRepresentative [⟨0, 0, 0⟩, ⟨3, 0, 0⟩] 4 0 ∧
    sqDist ⟨0, 0, 0⟩ ⟨3, 0, 0⟩ < 4 * 4 ∧
    flattenRemap [⟨0, 0, 0⟩, ⟨3, 0, 0⟩] 4 = [0, 1] := by
  refine ⟨by decide!, by decide!, by decide!, by decide!, by decide!, by decide!⟩

/-- C2 (amended). For every vertex sequence, every `min_dist` and every pair of indices
`a < b` such that the radius search from `a` reports `b` with a squared distance below
`min_dist` (for `min_dist <= 1`: every pair at distance less than `min_dist`), if `a` is
unassigned when the scan reaches it, then: `a` keeps the fresh compact index it is given;
`b` has that index right after the scan step of `a`; and `b` has it in the final remap
provided no representative scanned after `a` has `b` in its merge range. -/
theorem merge_single_hop (vertices : List PointXYZ) (min_dist : ℚ) (a b : Nat) (hab : a < b)
    (hb : b < vertices.length) (hnear : MergeNear vertices min_dist a b)
    (hrep : IsRepresentative vertices min_dist a) :
    (flattenRemap vertices min_dist).getD a (-1) = (scanState vertices min_dist a).idx ∧
    (scanState vertices min_dist (a + 1)).vertex_remap.getD b (-1) =
      (scanState vertices min_dist a).idx ∧
    ((∀ c, a < c → c < vertices.length → IsRepresentative vertices min_dist c →
        ¬ MergeNear vertices min_dist c b) →
      (flattenRemap vertices min_dist).getD b (-1) =
        (flattenRemap vertices min_dist).getD a (-1)) := by
  have ha : a < vertices.length := lt_trans hab hb
  have hA := rep_keeps_index ha hrep vertices.length ha (le_refl _)
  refine ⟨hA, ?_, ?_⟩
  · exact rep_step_assigns ha hb hrep (Or.inr (hit_of_mergeNear hab hb hnear))
  · intro hlast
    unfold flattenRemap at hA ⊢
    rw [hA]
    exact neighbor_keeps_index hab hb hrep hnear hlast vertices.length ha (le_refl _)

/-- Witness of C2 (amended): two vertices at distance `3/8`, merged with `min_dist = 1/2`. -/
theorem merge_single_hop_witness :
    ((0 : Nat) < 1 ∧ 1 < [(⟨0, 0, 0⟩ : PointXYZ), ⟨3 / 8, 0, 0⟩].length ∧
      MergeNear [⟨0, 0, 0⟩, ⟨3 / 8, 0, 0⟩] (1 / 2) 0 1 ∧
      IsRepresentative [⟨0, 0, 0⟩, ⟨3 / 8, 0, 0⟩] (1 / 2) 0) ∧
    (flattenRemap [⟨0, 0, 0⟩, ⟨3 / 8, 0, 0⟩] (1 / 2)).getD 0 (-1) =
      (scanState [⟨0, 0, 0⟩, ⟨3 / 8, 0, 0⟩] (1 / 2) 0).idx :=
  ⟨⟨by decide, by decide, by unfold MergeNear; decide!, by decide!⟩,
    (merge_single_hop [⟨0, 0, 0⟩, ⟨3 / 8, 0, 0⟩] (1 / 2) 0 1 (by decide) (by decide)
      (by unfold MergeNear; decide!) (by decide!)).1⟩

/-! ### Idempotence of the merge pass -/

theorem map_getD_range {α : Type} (l : List α) (d : α) :
    (List.range l.length).map (fun a => l.getD a d) = l := by
  apply List.ext_getElem?
  intro n
  rw [List.getElem?_map]
  by_cases hn : n < l.length
  · rw [List.getElem?_range hn]
    simp [List.getElem?_eq_getElem hn]
  · rw [List.getElem?_eq_none (by simpa using hn), List.getElem?_eq_none (by simpa using hn)]
    rfl

theorem range_split {n d : Nat} (hd : d < n) :
    List.range n = List.range d ++ d :: (List.range (n - d - 1)).map (fun j => d + 1 + j) := by
  have hn : n = d + ((n - d - 1) + 1) := by omega
  conv_lhs => rw [hn, List.range_add, List.range_succ_eq_map]
  simp only [List.map_cons, List.map_map, Nat.add_zero]
  congr 2
  apply List.map_congr_left
  intro j _
  simp only [Function.comp_apply, Nat.succ_eq_add_one]
  omega

theorem map_getD_drop {α : Type} (l : List α) (d : Nat) (x : α) :
    (List.range (l.length - d)).map (fun j => l.getD (d + j) x) = l.drop d := by
  have h := map_getD_range (l.drop d) x
  rw [List.length_drop] at h
  conv_rhs => rw [← h]
  apply List.map_congr_left
  intro j _
  simp only [List.getD_eq_getElem?_getD, List.getElem?_drop]

theorem survivors_cons_max (ps : List (List Nat)) (d : Nat) (D : List Nat) (hd : d < ps.length)
    (hD : ∀ r ∈ D, r < d) :
    survivors ps (d :: D) = survivors (ps.take d) D ++ ps.drop (d + 1) := by
  unfold survivors keptIndices
  rw [range_split hd, List.filter_append, List.filter_cons_of_neg (by simp), List.map_append]
  have hlen : (ps.take d).length = d := by
    rw [List.length_take]; omega
  congr 1
  · rw [hlen]
    have hf : (List.range d).filter (fun i => decide (i ∉ d :: D)) =
        (List.range d).filter (fun i => decide (i ∉ D)) := by
      apply List.filter_congr
      intro i hi
      have := List.mem_range.1 hi
      have hne : i ≠ d := by omega
      simp [hne]
    rw [hf]
    apply List.map_congr_left
    intro i hi
    have := List.mem_range.1 (List.mem_filter.1 hi).1
    simp only [List.getD_eq_getElem?_getD, List.getElem?_take_of_lt this]
  · have hf : ((List.range (ps.length - d - 1)).map (fun j => d + 1 + j)).filter
        (fun i => decide (i ∉ d :: D)) =
        (List.range (ps.length - d - 1)).map (fun j => d + 1 + j) := by
      rw [List.filter_eq_self]
      intro i hi
      obtain ⟨j, -, rfl⟩ := List.mem_map.1 hi
      have h1 : d + 1 + j ≠ d := by omega
      have h2 : d + 1 + j ∉ D := fun hm => by have := hD _ hm; omega
      simp [h1, h2]
    rw [hf, List.map_map]
    have := map_getD_drop ps (d + 1) []
    rw [show ps.length - (d + 1) = ps.length - d - 1 by omega] at this
    exact this

theorem foldl_eraseIdx_append (D : List Nat) (l1 l2 : List (List Nat))
    (hpw : D.Pairwise (· > ·)) (hD : ∀ r ∈ D, r < l1.length) :
    D.foldl (fun ps r => ps.eraseIdx r) (l1 ++ l2) =
      D.foldl (fun ps r => ps.eraseIdx r) l1 ++ l2 := by
  induction D generalizing l1 with
  | nil => rfl
  | cons d D ih =>
    rw [List.foldl_cons, List.foldl_cons,
      List.eraseIdx_append_of_lt_length (hD d (List.mem_cons_self _ _))]
    rw [List.pairwise_cons] at hpw
    apply ih _ hpw.2
    intro r hr
    have h1 := hpw.1 r hr
    have h2 := hD d (List.mem_cons_self _ _)
    rw [List.length_eraseIdx_of_lt h2]
    omega

theorem foldl_eraseIdx_eq_survivors (D : List Nat) (ps : List (List Nat))
    (hpw : D.Pairwise (· > ·)) (hD : ∀ r ∈ D, r < ps.length) :
    D.foldl (fun ps r => ps.eraseIdx r) ps = survivors ps D := by
  induction D generalizing ps with
  | nil =>
    unfold survivors keptIndices
    simp only [List.foldl_nil, List.not_mem_nil, not_false_eq_true, decide_True,
      List.filter_true]
    exact (map_getD_range ps []).symm
  | cons d D ih =>
    rw [List.pairwise_cons] at hpw
    have hd := hD d (List.mem_cons_self _ _)
    have hlen : (ps.take d).length = d := by
      rw [List.length_take]; omega
    rw [List.foldl_cons, List.eraseIdx_eq_take_drop_succ,
      foldl_eraseIdx_append D _ _ hpw.2 (by intro r hr; rw [hlen]; exact hpw.1 r hr),
      ih _ hpw.2 (by intro r hr; rw [hlen]; exact hpw.1 r hr),
      survivors_cons_max ps d D hd hpw.1]

theorem survivors_congr (ps : List (List Nat)) {R R' : List Nat}
    (h : ∀ i, i ∈ R ↔ i ∈ R') : survivors ps R = survivors ps R' := by
  unfold survivors keptIndices
  congr 1
  apply List.filter_congr
  intro i _
  simp [h i]

theorem eraseFaces_eq_survivors (ps : List (List Nat)) (R : List Nat) (hnd : R.Nodup)
    (hR : ∀ r ∈ R, r < ps.length) : eraseFaces ps R = survivors ps R := by
  unfold eraseFaces
  have hperm : (R.insertionSort (· ≤ ·)).reverse.Perm R :=
    (List.reverse_perm _).trans (List.perm_insertionSort _ R)
  have hsorted : (R.insertionSort (· ≤ ·)).Sorted (· < ·) :=
    (List.sorted_insertionSort (· ≤ ·) R).lt_of_le
      ((List.perm_insertionSort _ R).nodup_iff.2 hnd)
  have hpw : (R.insertionSort (· ≤ ·)).reverse.Pairwise (· > ·) := by
    rw [List.pairwise_reverse]
    exact hsorted
  rw [foldl_eraseIdx_eq_survivors _ ps hpw (fun r hr => hR r (hperm.mem_iff.1 hr))]
  exact survivors_congr ps (fun i => hperm.mem_iff)

theorem eraseFaces_sublist (ps : List (List Nat)) (R : List Nat) :
    (eraseFaces ps R).Sublist ps := by
  unfold eraseFaces
  generalize (R.insertionSort (· ≤ ·)).reverse = D
  induction D generalizing ps with
  | nil => exact List.Sublist.refl _
  | cons d D ih =>
    rw [List.foldl_cons]
    exact (ih _).trans (List.eraseIdx_sublist ps d)

theorem keptIndices_length (n : Nat) (R : List Nat) (hnd : R.Nodup) (hR : ∀ r ∈ R, r < n) :
    (keptIndices n R).length = n - R.length := by
  unfold keptIndices
  have h1 : ((List.range n).filter (fun i => decide (i ∈ R))).Perm R := by
    rw [List.perm_ext_iff_of_nodup ((List.nodup_range n).filter _) hnd]
    intro a
    simp only [List.mem_filter, List.mem_range, decide_eq_true_eq]
    exact ⟨fun h => h.2, fun h => ⟨hR a h, h⟩⟩
  have h2 := List.filter_append_perm (fun i => decide (i ∈ R)) (List.range n)
  have h3 := h2.length_eq
  rw [List.length_append, h1.length_eq, List.length_range] at h3
  have h4 : (List.range n).filter (fun i => decide (i ∉ R)) =
      (List.range n).filter (fun x => !(decide (x ∈ R))) := by
    apply List.filter_congr
    intro i _
    simp
  rw [h4]
  omega

/-! ### Marking, compaction and reindexing -/

theorem set_true_getD (hf : List Bool) (a i : Nat) (hi : i < hf.length) :
    (hf.set a true).getD i false = true ↔ hf.getD i false = true ∨ i = a := by
  by_cases e : a = i
  · subst e
    rw [List.getD_eq_getElem?_getD, List.getElem?_set_self hi]
    simp
  · rw [List.getD_eq_getElem?_getD, List.getElem?_set_ne e, ← List.getD_eq_getElem?_getD]
    constructor
    · exact Or.inl
    · rintro (h | h)
      · exact h
      · exact absurd h.symm e

theorem set_three_getD (hf : List Bool) (a b c i : Nat) (hi : i < hf.length) :
    (((hf.set a true).set b true).set c true).getD i false = true ↔
      hf.getD i false = true ∨ (i = a ∨ i = b ∨ i = c) := by
  rw [set_true_getD _ c i (by simpa using hi), set_true_getD _ b i (by simpa using hi),
    set_true_getD _ a i hi]
  tauto

theorem markFaces_fold (polygons : List (List Nat)) (hf : List Bool) :
    (polygons.foldl
      (fun has_face v =>
        ((has_face.set (v.getD 0 0) true).set (v.getD 1 0) true).set (v.getD 2 0) true)
      hf).length = hf.length ∧
    ∀ i, i < hf.length →
      ((polygons.foldl
        (fun has_face v =>
          ((has_face.set (v.getD 0 0) true).set (v.getD 1 0) true).set (v.getD 2 0) true)
        hf).getD i false = true ↔
      hf.getD i false = true ∨
        ∃ v ∈ polygons, i = v.getD 0 0 ∨ i = v.getD 1 0 ∨ i = v.getD 2 0) := by
  induction polygons generalizing hf with
  | nil => simp
  | cons v polygons ih =>
    rw [List.foldl_cons]
    obtain ⟨h1, h2⟩ := ih (((hf.set (v.getD 0 0) true).set (v.getD 1 0) true).set (v.getD 2 0) true)
    have hlen : (((hf.set (v.getD 0 0) true).set (v.getD 1 0) true).set
        (v.getD 2 0) true).length = hf.length := by simp
    refine ⟨h1.trans hlen, ?_⟩
    intro i hi
    rw [h2 i (by rw [hlen]; exact hi)]
    have hset := set_three_getD hf (v.getD 0 0) (v.getD 1 0) (v.getD 2 0) i hi
    rw [hset]
    constructor
    · rintro ((h | h) | ⟨w, hw, h⟩)
      · exact Or.inl h
      · exact Or.inr ⟨v, List.mem_cons_self _ _, h⟩
      · exact Or.inr ⟨w, List.mem_cons_of_mem _ hw, h⟩
    · rintro (h | ⟨w, hw, h⟩)
      · exact Or.inl (Or.inl h)
      · rcases List.mem_cons.1 hw with rfl | hw
        · exact Or.inl (Or.inr h)
        · exact Or.inr ⟨w, hw, h⟩

theorem markFaces_length (n : Nat) (polygons : List (List Nat)) :
    (markFaces n polygons).length = n := by
  unfold markFaces
  rw [(markFaces_fold polygons _).1]
  simp

theorem markFaces_spec (n : Nat) (polygons : List (List Nat))
    (htri : ∀ v ∈ polygons, v.length = 3) (i : Nat) (hi : i < n) :
    (markFaces n polygons).getD i false = true ↔ ∃ v ∈ polygons, i ∈ v := by
  unfold markFaces
  rw [(markFaces_fold polygons _).2 i (by simpa using hi)]
  have h0 : ¬ ((List.replicate n false).getD i false = true) := by
    rw [List.getD_eq_getElem?_getD, List.getElem?_replicate_of_lt hi]
    simp
  constructor
  · rintro (h | ⟨v, hv, h⟩)
    · exact absurd h h0
    · obtain ⟨a, b, c, rfl⟩ := exists_triple (htri v hv)
      refine ⟨_, hv, ?_⟩
      simp only [List.getD_eq_getElem?_getD, List.getElem?_cons_zero, List.getElem?_cons_succ,
        Option.getD_some] at h
      simp only [List.mem_cons, List.mem_singleton, List.not_mem_nil, or_false]
      exact h
  · rintro ⟨v, hv, h⟩
    right
    obtain ⟨a, b, c, rfl⟩ := exists_triple (htri v hv)
    refine ⟨_, hv, ?_⟩
    simp only [List.mem_cons, List.mem_singleton, List.not_mem_nil, or_false] at h
    simp only [List.getD_eq_getElem?_getD, List.getElem?_cons_zero, List.getElem?_cons_succ,
      Option.getD_some]
    exact h

theorem compact_fold (vertices : List PointXYZ) (hf : List Bool) (p : Nat)
    (hp : p ≤ vertices.length) :
    ((List.range p).foldl (compactStep vertices hf)
      ⟨[], List.replicate vertices.length 0, 0⟩).vertices_new =
      ((List.range p).filter (fun i => hf.getD i false)).map
        (fun i => vertices.getD i PointXYZ.zero) ∧
    ((List.range p).foldl (compactStep vertices hf)
      ⟨[], List.replicate vertices.length 0, 0⟩).cur_idx =
      ((List.range p).filter (fun i => hf.getD i false)).length ∧
    ((List.range p).foldl (compactStep vertices hf)
      ⟨[], List.replicate vertices.length 0, 0⟩).get_new_idx.length = vertices.length ∧
    ∀ i, i < p → hf.getD i false = true →
      ((List.range p).foldl (compactStep vertices hf)
        ⟨[], List.replicate vertices.length 0, 0⟩).get_new_idx.getD i 0 =
        ((List.range i).filter (fun i => hf.getD i false)).length := by
  induction p with
  | zero =>
    refine ⟨rfl, rfl, by simp, ?_⟩
    intro i hi; omega
  | succ p ih =>
    obtain ⟨h1, h2, h3, h4⟩ := ih (Nat.le_of_succ_le hp)
    rw [List.range_succ, List.foldl_append, List.foldl_cons, List.foldl_nil, List.filter_append,
      List.map_append, List.length_append]
    generalize (List.range p).foldl (compactStep vertices hf)
      ⟨[], List.replicate vertices.length 0, 0⟩ = st at h1 h2 h3 h4
    unfold compactStep
    by_cases hk : hf.getD p false = true
    · have e : List.filter (fun i => hf.getD i false) [p] = [p] := by
        simp only [List.filter, hk]
      rw [if_pos hk, e]
      refine ⟨by simp [h1], by simp [h2], by simp [h3], ?_⟩
      intro i hi hfi
      simp only
      rcases Nat.lt_succ_iff_lt_or_eq.1 hi with hlt | rfl
      · rw [List.getD_eq_getElem?_getD, List.getElem?_set_ne (by omega),
          ← List.getD_eq_getElem?_getD]
        exact h4 i hlt hfi
      · rw [List.getD_eq_getElem?_getD, List.getElem?_set_self (by omega)]
        exact h2
    · have e : List.filter (fun i => hf.getD i false) [p] = [] := by
        simp only [List.filter, eq_false_of_ne_true hk]
      rw [if_neg hk, e]
      refine ⟨by simp [h1], by simp [h2], h3, ?_⟩
      intro i hi hfi
      rcases Nat.lt_succ_iff_lt_or_eq.1 hi with hlt | rfl
      · exact h4 i hlt hfi
      · exact absurd hfi hk

/-- In a filtered range, a kept index sits at the position counting the kept indices
below it. -/
theorem filter_range_getElem? (n : Nat) (P : Nat → Bool) (a : Nat) (ha : a < n)
    (hPa : P a = true) :
    ((List.range n).filter P)[((List.range a).filter P).length]? = some a := by
  rw [range_split ha, List.filter_append, List.filter_cons_of_pos hPa,
    List.getElem?_append_right (le_refl _), Nat.sub_self, List.getElem?_cons_zero]

theorem filter_range_length_lt (n : Nat) (P : Nat → Bool) (a : Nat) (ha : a < n)
    (hPa : P a = true) :
    ((List.range a).filter P).length < ((List.range n).filter P).length := by
  rw [range_split ha, List.filter_append, List.filter_cons_of_pos hPa, List.length_append,
    List.length_cons]
  omega

theorem reindexFace_triple (g : List Nat) (a b c : Nat) :
    reindexFace g [a, b, c] = [g.getD a 0, g.getD b 0, g.getD c 0] := by
  simp [reindexFace]

/-! ### The cleaned mesh -/

theorem eraseFaces_triangles (mesh : PolygonMesh) (R : List Nat) (hmesh : TriangleMesh mesh) :
    ∀ v ∈ eraseFaces mesh.polygons R, v.length = 3 ∧ ∀ k ∈ v, k < mesh.cloud.length :=
  fun v hv => hmesh v ((eraseFaces_sublist mesh.polygons R).subset hv)

theorem cleanupFaces_cloud (mesh : PolygonMesh) (R : List Nat) :
    (cleanupFaces mesh R).cloud =
      ((List.range mesh.cloud.length).filter
        (fun i => (markFaces mesh.cloud.length (eraseFaces mesh.polygons R)).getD i false)).map
        (fun i => mesh.cloud.getD i PointXYZ.zero) :=
  (compact_fold mesh.cloud _ mesh.cloud.length (le_refl _)).1

theorem cleanupFaces_polygons (mesh : PolygonMesh) (R : List Nat) :
    (cleanupFaces mesh R).polygons =
      (eraseFaces mesh.polygons R).map
        (reindexFace (compactVertices mesh.cloud
          (markFaces mesh.cloud.length (eraseFaces mesh.polygons R))).get_new_idx) := rfl

/-- A vertex index in use by a surviving face is sent by `get_new_idx` to a position of
the compacted vertex sequence that holds the same vertex. -/
theorem new_index_spec (mesh : PolygonMesh) (R : List Nat) (hmesh : TriangleMesh mesh)
    (v : List Nat) (hv : v ∈ eraseFaces mesh.polygons R) (a : Nat) (ha : a ∈ v) :
    (compactVertices mesh.cloud
        (markFaces mesh.cloud.length (eraseFaces mesh.polygons R))).get_new_idx.getD a 0 <
      (cleanupFaces mesh R).cloud.length ∧
    (cleanupFaces mesh R).cloud[(compactVertices mesh.cloud
        (markFaces mesh.cloud.length (eraseFaces mesh.polygons R))).get_new_idx.getD a 0]? =
      mesh.cloud[a]? := by
  have htri := eraseFaces_triangles mesh R hmesh
  have han : a < mesh.cloud.length := (htri v hv).2 a ha
  have hmark : (markFaces mesh.cloud.length (eraseFaces mesh.polygons R)).getD a false = true :=
    (markFaces_spec _ _ (fun w hw => (htri w hw).1) a han).2 ⟨v, hv, ha⟩
  have hg := (compact_fold mesh.cloud
    (markFaces mesh.cloud.length (eraseFaces mesh.polygons R)) mesh.cloud.length
    (le_refl _)).2.2.2 a han hmark
  have hg' : (compactVertices mesh.cloud
      (markFaces mesh.cloud.length (eraseFaces mesh.polygons R))).get_new_idx.getD a 0 =
      ((List.range a).filter (fun i =>
        (markFaces mesh.cloud.length (eraseFaces mesh.polygons R)).getD i false)).length := hg
  rw [hg', cleanupFaces_cloud]
  constructor
  · rw [List.length_map]
    exact filter_range_length_lt _ _ a han hmark
  · rw [List.getElem?_map, filter_range_getElem? _ _ a han hmark]
    simp [List.getElem?_eq_getElem han]

theorem resolve_reindexFace (mesh : PolygonMesh) (R : List Nat) (hmesh : TriangleMesh mesh)
    (v : List Nat) (hv : v ∈ eraseFaces mesh.polygons R) :
    resolve (cleanupFaces mesh R).cloud
      (reindexFace (compactVertices mesh.cloud
        (markFaces mesh.cloud.length (eraseFaces mesh.polygons R))).get_new_idx v) =
      resolve mesh.cloud v := by
  have hspec := new_index_spec mesh R hmesh v hv
  obtain ⟨a, b, c, rfl⟩ := exists_triple (eraseFaces_triangles mesh R hmesh v hv).1
  rw [reindexFace_triple]
  simp only [resolve, List.map_cons, List.map_nil]
  rw [(hspec a (by simp)).2, (hspec b (by simp)).2, (hspec c (by simp)).2]

theorem cleanupFaces_spec (mesh : PolygonMesh) (R : List Nat)
    (hmesh : TriangleMesh mesh) (hnd : R.Nodup) (hR : ∀ r ∈ R, r < mesh.polygons.length) :
    (cleanupFaces mesh R).polygons.length = mesh.polygons.length - R.length ∧
    (cleanupFaces mesh R).polygons.map (resolve (cleanupFaces mesh R).cloud) =
      (survivors mesh.polygons R).map (resolve mesh.cloud) ∧
    (cleanupFaces mesh R).cloud =
      ((List.range mesh.cloud.length).filter
        (fun i => decide (∃ f ∈ survivors mesh.polygons R, i ∈ f))).map
        (fun i => mesh.cloud.getD i PointXYZ.zero) := by
  have hsurv := eraseFaces_eq_survivors mesh.polygons R hnd hR
  refine ⟨?_, ?_, ?_⟩
  · rw [cleanupFaces_polygons, List.length_map, hsurv]
    unfold survivors
    rw [List.length_map, keptIndices_length _ _ hnd hR]
  · rw [cleanupFaces_polygons, List.map_map, ← hsurv]
    apply List.map_congr_left
    intro v hv
    exact resolve_reindexFace mesh R hmesh v hv
  · rw [cleanupFaces_cloud, ← hsurv]
    congr 1
    apply List.filter_congr
    intro i hi
    have htri := eraseFaces_triangles mesh R hmesh
    have := markFaces_spec mesh.cloud.length (eraseFaces mesh.polygons R)
      (fun w hw => (htri w hw).1) i (List.mem_range.1 hi)
    by_cases h : ∃ f ∈ eraseFaces mesh.polygons R, i ∈ f
    · rw [this.2 h, decide_eq_true h]
    · rw [eq_false_of_ne_true (fun hc => h (this.1 hc)), decide_eq_false h]

/-- C4. `cleanupMesh` deletes exactly the flagged faces and reindexes the rest without
changing their geometry.  For every mesh of triangles with in-range indices and every
list `R` of distinct in-range face positions, after the erase, prune and remap steps:
the number of faces is the input number minus the length of `R`; the faces, resolved
to vertex positions through the output vertex sequence, are the input faces whose
position is not in `R`, in original order and corner order, resolved through the input
vertex sequence; and the output vertex sequence is made of the input vertices used by
a surviving face, in original relative order. -/
theorem cleanup_deletes_flagged_faces (mesh : PolygonMesh) (R : List Nat)
    (hmesh : TriangleMesh mesh) (hnd : R.Nodup) (hR : ∀ r ∈ R, r < mesh.polygons.length) :
    (cleanupFaces mesh R).polygons.length = mesh.polygons.length - R.length ∧
    (cleanupFaces mesh R).polygons.map (resolve (cleanupFaces mesh R).cloud) =
      (survivors mesh.polygons R).map (resolve mesh.cloud) ∧
    (cleanupFaces mesh R).cloud =
      ((List.range mesh.cloud.length).filter
        (fun i => decide (∃ f ∈ survivors mesh.polygons R, i ∈ f))).map
        (fun i => mesh.cloud.getD i PointXYZ.zero) :=
  cleanupFaces_spec mesh R hmesh hnd hR

/-- Witness of C4: the second of three triangles over five vertices is deleted. -/
theorem cleanup_deletes_flagged_faces_witness :
    (TriangleMesh ⟨[⟨0, 0, 0⟩, ⟨1, 0, 0⟩, ⟨0, 1, 0⟩, ⟨1, 1, 0⟩, ⟨2, 2, 0⟩],
        [[0, 1, 2], [1, 3, 4], [2, 1, 3]]⟩ ∧
      [1].Nodup ∧ ∀ r ∈ [1], r < (PolygonMesh.mk
        [⟨0, 0, 0⟩, ⟨1, 0, 0⟩, ⟨0, 1, 0⟩, ⟨1, 1, 0⟩, ⟨2, 2, 0⟩]
        [[0, 1, 2], [1, 3, 4], [2, 1, 3]]).polygons.length) ∧
    (cleanupFaces ⟨[⟨0, 0, 0⟩, ⟨1, 0, 0⟩, ⟨0, 1, 0⟩, ⟨1, 1, 0⟩, ⟨2, 2, 0⟩],
        [[0, 1, 2], [1, 3, 4], [2, 1, 3]]⟩ [1]).polygons.length =
      (PolygonMesh.mk [⟨0, 0, 0⟩, ⟨1, 0, 0⟩, ⟨0, 1, 0⟩, ⟨1, 1, 0⟩, ⟨2, 2, 0⟩]
        [[0, 1, 2], [1, 3, 4], [2, 1, 3]]).polygons.length - [1].length :=
  ⟨⟨by unfold TriangleMesh; decide, by decide, by decide⟩,
    (cleanup_deletes_flagged_faces ⟨[⟨0, 0, 0⟩, ⟨1, 0, 0⟩, ⟨0, 1, 0⟩, ⟨1, 1, 0⟩, ⟨2, 2, 0⟩],
      [[0, 1, 2], [1, 3, 4], [2, 1, 3]]⟩ [1] (by unfold TriangleMesh; decide) (by decide)
      (by decide)).1⟩

/-- C5. The mesh produced by the erase, prune and remap steps of `cleanupMesh` is
well-indexed.  For every mesh of triangles with in-range indices and every list of face
positions to remove: every index of every output face is less than the length of the
compacted vertex sequence, and every vertex of the compacted vertex sequence is used
by at least one output face. -/
theorem cleanup_result_invariant (mesh : PolygonMesh) (R : List Nat)
    (hmesh : TriangleMesh mesh) :
    (∀ f ∈ (cleanupFaces mesh R).polygons, ∀ i ∈ f, i < (cleanupFaces mesh R).cloud.length) ∧
    (∀ j, j < (cleanupFaces mesh R).cloud.length →
      ∃ f ∈ (cleanupFaces mesh R).polygons, j ∈ f) := by
  have htri := eraseFaces_triangles mesh R hmesh
  constructor
  · intro f hf i hi
    rw [cleanupFaces_polygons] at hf
    obtain ⟨v, hv, rfl⟩ := List.mem_map.1 hf
    have hspec := new_index_spec mesh R hmesh v hv
    obtain ⟨a, b, c, rfl⟩ := exists_triple (htri v hv).1
    rw [reindexFace_triple] at hi
    simp only [List.mem_cons, List.mem_singleton, List.not_mem_nil, or_false] at hi
    rcases hi with rfl | rfl | rfl
    · exact (hspec a (by simp)).1
    · exact (hspec b (by simp)).1
    · exact (hspec c (by simp)).1
  · intro j hj
    have hcloud := cleanupFaces_cloud mesh R
    have hj' := hj
    rw [hcloud, List.length_map] at hj'
    -- the input vertex stored at position `j`
    have hmem := List.getElem_mem hj'
    rw [List.mem_filter, List.mem_range] at hmem
    obtain ⟨han, hmark⟩ := hmem
    obtain ⟨v, hv, hav⟩ := (markFaces_spec _ _ (fun w hw => (htri w hw).1) _ han).1 hmark
    have hpos := filter_range_getElem? mesh.cloud.length
      (fun i => (markFaces mesh.cloud.length (eraseFaces mesh.polygons R)).getD i false)
      _ han hmark
    have hnd : ((List.range mesh.cloud.length).filter (fun i =>
        (markFaces mesh.cloud.length (eraseFaces mesh.polygons R)).getD i false)).Nodup :=
      (List.nodup_range _).filter _
    have hlt := filter_range_length_lt mesh.cloud.length
      (fun i => (markFaces mesh.cloud.length (eraseFaces mesh.polygons R)).getD i false)
      _ han hmark
    rw [List.getElem?_eq_getElem hlt, Option.some.injEq] at hpos
    have hidx := (hnd.getElem_inj_iff).1 hpos
    have hg := (compact_fold mesh.cloud
      (markFaces mesh.cloud.length (eraseFaces mesh.polygons R)) mesh.cloud.length
      (le_refl _)).2.2.2 _ han hmark
    refine ⟨_, List.mem_map.2 ⟨v, hv, rfl⟩, ?_⟩
    obtain ⟨a, b, c, rfl⟩ := exists_triple (htri v hv).1
    rw [reindexFace_triple]
    have hgj : (compactVertices mesh.cloud
        (markFaces mesh.cloud.length (eraseFaces mesh.polygons R))).get_new_idx.getD
        (((List.range mesh.cloud.length).filter (fun i =>
          (markFaces mesh.cloud.length (eraseFaces mesh.polygons R)).getD i false))[j]) 0 = j :=
      hg.trans hidx
    simp only [List.mem_cons, List.mem_singleton, List.not_mem_nil, or_false] at hav ⊢
    rcases hav with h | h | h
    · left; rw [← h]; exact hgj.symm
    · right; left; rw [← h]; exact hgj.symm
    · right; right; rw [← h]; exact hgj.symm

/-- Witness of C5: the second of three triangles over five vertices is deleted. -/
theorem cleanup_result_invariant_witness :
    TriangleMesh ⟨[⟨0, 0, 0⟩, ⟨1, 0, 0⟩, ⟨0, 1, 0⟩, ⟨1, 1, 0⟩, ⟨2, 2, 0⟩],
        [[0, 1, 2], [1, 3, 4], [2, 1, 3]]⟩ ∧
    ∀ j, j < (cleanupFaces ⟨[⟨0, 0, 0⟩, ⟨1, 0, 0⟩, ⟨0, 1, 0⟩, ⟨1, 1, 0⟩, ⟨2, 2, 0⟩],
        [[0, 1, 2], [1, 3, 4], [2, 1, 3]]⟩ [1]).cloud.length →
      ∃ f ∈ (cleanupFaces ⟨[⟨0, 0, 0⟩, ⟨1, 0, 0⟩, ⟨0, 1, 0⟩, ⟨1, 1, 0⟩, ⟨2, 2, 0⟩],
        [[0, 1, 2], [1, 3, 4], [2, 1, 3]]⟩ [1]).polygons, j ∈ f :=
  ⟨by unfold TriangleMesh; decide,
    (cleanup_result_invariant ⟨[⟨0, 0, 0⟩, ⟨1, 0, 0⟩, ⟨0, 1, 0⟩, ⟨1, 1, 0⟩, ⟨2, 2, 0⟩],
      [[0, 1, 2], [1, 3, 4], [2, 1, 3]]⟩ [1] (by unfold TriangleMesh; decide)).2⟩

/-! ### The neighbour loop of the cluster extraction -/

theorem radiusSearch_single (p : PointXYZ) : radiusSearch [p] 0 (1 / 50) = [(0, 0)] := by
  simp [radiusSearch, sqDist_self, List.range_succ]

theorem facesToRemove_single (p : PointXYZ) : facesToRemove [p] (1 / 50) 5 = [0] := by
  have hgrow : growCluster [p] (1 / 50) [p].length 0 ([0], [false].set 0 true) =
      ([0], [true]) := by
    show growCluster [p] (1 / 50) 1 0 ([0], [true]) = ([0], [true])
    unfold growCluster
    rw [if_pos (by decide)]
    show growCluster [p] (1 / 50) 0 1 (pushNeighbors (radiusSearch [p] 0 (1 / 50)) _) = _
    rw [radiusSearch_single]
    rfl
  unfold facesToRemove extractEuclideanClusters
  show (List.foldl (extractStep [p] (1 / 50) 1 5) ([], [false]) [0]).1.flatten = [0]
  rw [List.foldl_cons, List.foldl_nil]
  unfold extractStep
  rw [if_neg (by decide)]
  simp only [hgrow]
  decide

/-- C10 (the code departs from the claim). On a mesh made of a quadrilateral (face 0)
followed by a triangle (face 1), cleaned with the default parameters (`face_dist = 0.02`,
`min_neighbors = 5`), for every rounding of the float arithmetic: the face cloud holds
the single centroid of the triangle, at position 0 (the point `(31/3, 1/3, 0)` in exact
arithmetic); its cluster `[0]` is small; and the face erased at position 0 is the
quadrilateral, so that the triangle whose centroid was clustered is the face left in
the mesh. -/
theorem cleanup_erases_shifted_face :
    (∀ rnd : ℚ → ℚ, meshToFaceCloud rnd quadThenTriangle =
      some [centroid rnd ⟨10, 0, 0⟩ ⟨11, 0, 0⟩ ⟨10, 1, 0⟩]) ∧
    meshToFaceCloud (fun q => q) quadThenTriangle = some [⟨31 / 3, 1 / 3, 0⟩] ∧
    (∀ p : PointXYZ, facesToRemove [p] (1 / 50) 5 = [0]) ∧
    quadThenTriangle.polygons.getD 0 [] = [0, 1, 2, 3] ∧
    eraseFaces quadThenTriangle.polygons [0] = [[4, 5, 6]] ∧
    (∀ rnd : ℚ → ℚ, cleanupMesh rnd quadThenTriangle (1 / 50) 5 =
      some ⟨[⟨10, 0, 0⟩, ⟨11, 0, 0⟩, ⟨10, 1, 0⟩], [[0, 1, 2]]⟩) := by
  have hcloud : ∀ rnd : ℚ → ℚ, meshToFaceCloud rnd quadThenTriangle =
      some [centroid rnd ⟨10, 0, 0⟩ ⟨11, 0, 0⟩ ⟨10, 1, 0⟩] := by
    intro rnd
    rfl
  refine ⟨hcloud, by decide!, facesToRemove_single, by decide!, by decide!, ?_⟩
  intro rnd
  unfold cleanupMesh
  rw [hcloud rnd]
  show some (cleanupFaces quadThenTriangle (facesToRemove _ (1 / 50) 5)) = _
  rw [facesToRemove_single]
  decide!

end CpuTsdf
